import Mathlib

/-!
# Verification of the rosbag V1.2 writer/reader core

A shallow embedding of `src/src/rosbag.cpp` and `src/include/rosbag/rosbag.h`
(the `rosbag::Bag` writer state machine, reader bootstrap, and the
topic/time-filtered merge view), together with proofs settling the claims
about the natural-language specification.

Modelling conventions:

* machine integers are `Nat`; where the C++ code serializes fixed-width
  little-endian integers (`memcpy` of `uint32_t`/`uint64_t`) the encoders
  take the value `% 2^32` / `% 2^64`;
* a record is modelled as its decoded header (an association list
  `name ↦ value bytes`, the result of the external `ros::Header` codec,
  which encodes `name '=' len(4 LE) bytes` per field) plus its body bytes;
  the byte size of a record is tracked exactly
  (`4 + header_len + 4 + data_len`);
* the file is a list of `(position, record)` pairs in emission order, plus
  the version line; a read at position `p` sees the record most recently
  written at `p` (the writer is append-only except for the single seek back
  to the file-header slot in `close`);
* `assert(...)` failures and undefined behaviour (dereferencing the `end()`
  iterator) are modelled as `Option.none`; functions that merely
  `return false` without mutating state keep the state;
* external collaborators (wall clock, disk-space check, `ROS_FATAL`
  logging, message serialization) are outside the core per the spec; the
  serialized body of a message is carried as its `payload` bytes.
-/

namespace Rosbag

/-! ## Bytes and little-endian integers -/

/-- `uint32_t` copied byte-wise into a 4-byte little-endian field. -/
def u32le (n : Nat) : List Nat :=
  [n % 256, n / 256 % 256, n / 65536 % 256, n / 16777216 % 256]

/-- `uint64_t` copied byte-wise into an 8-byte little-endian field. -/
def u64le (n : Nat) : List Nat :=
  [n % 256, n / 256 % 256, n / 65536 % 256, n / 16777216 % 256,
   n / 4294967296 % 256, n / 1099511627776 % 256,
   n / 281474976710656 % 256, n / 72057594037927936 % 256]

/-- Read a little-endian byte list back into a `Nat` (the reader's `memcpy`
into an integer variable). -/
def decodeLE (bs : List Nat) : Nat := bs.foldr (fun b acc => b + 256 * acc) 0

/-- Bytes of a `std::string` (ASCII contents as stored in header fields). -/
def strBytes (s : String) : List Nat := s.data.map Char.toNat

/-- Recover a `std::string` from header-field bytes. -/
def bytesToStr (bs : List Nat) : String := String.mk (bs.map Char.ofNat)

/-! ## Times (`ros::Time`: seconds/nanoseconds, compared lexicographically) -/

structure RTime where
  sec : Nat
  nsec : Nat
deriving DecidableEq, Repr

/-- `ros::Time::operator<`. -/
def RTime.ltb (a b : RTime) : Bool :=
  a.sec < b.sec || (a.sec = b.sec && a.nsec < b.nsec)

/-- `ros::Time::operator<=`. -/
def RTime.leb (a b : RTime) : Bool :=
  a.sec < b.sec || (a.sec = b.sec && a.nsec ≤ b.nsec)

/-- `ros::TIME_MIN` (the smallest representable nonzero time). -/
def TIME_MIN : RTime := ⟨0, 1⟩

/-- `ros::TIME_MAX`. -/
def TIME_MAX : RTime := ⟨4294967295, 999999999⟩

/-! ## Index entries and topic metadata -/

/-- `rosbag::IndexEntry` (rosbag.h): a timestamp plus the byte offset of the
corresponding record. -/
structure IndexEntry where
  time : RTime
  pos : Nat
deriving DecidableEq, Repr

/-- `rosbag::MsgInfo` (rosbag.h): per-topic metadata. -/
structure MsgInfo where
  topic : String
  msg_def : String
  md5sum : String
  datatype : String
deriving DecidableEq, Repr

/-- A message handed to `Bag::write`: the message-trait strings plus the
serialized body bytes (serialization itself is an external collaborator).
`latching`/`callerid` model the optional connection-header values. -/
structure WMsg where
  datatype : String
  md5sum : String
  msg_def : String
  payload : List Nat
  latching : Bool
  callerid : String
deriving DecidableEq, Repr

/-! ## Association lists standing for `std::map<std::string, _>` -/

/-- Lexicographic byte order on strings (`std::string::operator<`),
written out so that the kernel can evaluate it. -/
def strLtCore : List Char → List Char → Bool
  | [], [] => false
  | [], _ :: _ => true
  | _ :: _, [] => false
  | a :: as, b :: bs =>
    if a.toNat < b.toNat then true
    else if b.toNat < a.toNat then false
    else strLtCore as bs

def strLt (a b : String) : Bool := strLtCore a.data b.data

/-- `map.find(k)` followed by a dereference. -/
def lookupA {α : Type} : List (String × α) → String → Option α
  | [], _ => none
  | (k, v) :: t, s => if k = s then some v else lookupA t s

/-- Insert a fresh key into the key-ordered map. -/
def insertSortedA {α : Type} (k : String) (v : α) :
    List (String × α) → List (String × α)
  | [] => [(k, v)]
  | (k', v') :: t =>
    if strLt k k' then (k, v) :: (k', v') :: t
    else (k', v') :: insertSortedA k v t

/-- Apply `f` to the value bound to `k`, if any. -/
def updateA {α : Type} (k : String) (f : α → α) :
    List (String × α) → List (String × α)
  | [] => []
  | (k', v) :: t => if k' = k then (k', f v) :: t else (k', v) :: updateA k f t

/-- `map[k] = v` (`std::map::operator[]` followed by assignment): overwrite
an existing binding, otherwise insert in key order. -/
def setA {α : Type} (k : String) (v : α) (l : List (String × α)) :
    List (String × α) :=
  if (lookupA l k).isSome then updateA k (fun _ => v) l else insertSortedA k v l

/-- `std::map::operator[]` default-constructs a missing entry before it
is used. -/
def getOrCreateA {α : Type} (k : String) (d : α) (l : List (String × α)) :
    List (String × α) :=
  if (lookupA l k).isSome then l else insertSortedA k d l

/-! ## Records

Field-name constants are those of `rosbag/constants.h` (the header is not
part of `src/`; names and opcode values are modelled from the spec's
file-format section, which lists the fields used per opcode). -/

def OP_MSG_DEF : Nat := 1
def OP_MSG_DATA : Nat := 2
def OP_FILE_HEADER : Nat := 3
def OP_INDEX_DATA : Nat := 4

/-- Modelled from the spec: `INDEX_VERSION` from `rosbag/constants.h`
(not under `src/`); the writer stamps it into every index record and the
reader asserts equality, so only agreement matters. -/
def INDEX_VERSION : Nat := 0

/-- Modelled from the spec: `FILE_HEADER_LENGTH` from `rosbag/constants.h`
(not under `src/`).  The spec only requires the file-header record to be
padded to at least this many bytes so it can be rewritten in place; the
concrete value is implementation-chosen, and any value no smaller than the
encoded header suffices for the in-place rewrite, so a small one is used
to keep the model cheaply executable. -/
def FILE_HEADER_LENGTH : Nat := 64

/-- Modelled from the spec: `VERSION` from `rosbag/constants.h`
(not under `src/`); the spec fixes the format version at "1.2". -/
def VERSION : String := "1.2"

/-- A record: its decoded header fields (`ros::M_string`, name ↦ value
bytes) and its body bytes.  The external `ros::Header` codec maps the
fields to `name '=' value_len(4 LE) value` blocks; only the total encoded
size matters for position bookkeeping and it is order-independent. -/
structure Rec where
  fields : List (String × List Nat)
  data : List Nat
deriving DecidableEq, Repr

/-- Encoded byte length of the header block produced by
`ros::Header::write`. -/
def fieldsSize (fs : List (String × List Nat)) : Nat :=
  fs.foldr (fun f acc => f.1.length + 1 + 4 + f.2.length + acc) 0

/-- Total bytes a record occupies in the file:
`hdr_len(4) | header | data_len(4) | data`. -/
def Rec.size (r : Rec) : Nat := 4 + fieldsSize r.fields + 4 + r.data.length

/-- Header-field lookup (`fields.find(name)`). -/
def findField (r : Rec) (name : String) : Option (List Nat) :=
  lookupA r.fields name

/-- `Bag::checkField` (rosbag.cpp:762-785): missing required field or a
value outside `[min_len, max_len]` leaves the caller with `fields.end()`,
modelled as `none`. -/
def checkFieldM (r : Rec) (name : String) (minLen maxLen : Nat) :
    Option (List Nat) :=
  match findField r name with
  | none => none
  | some v => if v.length < minLen || maxLen < v.length then none else some v

/-- The record's opcode: first byte of the `op` field. -/
def opOf (r : Rec) : Option Nat := (findField r "op").bind List.head?

/-- `UINT_MAX` as used in the `checkField` calls. -/
def UINT_MAX : Nat := 4294967295

/-! ## The writer (`rosbag::Bag`, write mode)

The file is carried as the version line plus the list of emitted records,
each tagged with the `record_pos_` value at which it was written.  A read
at position `p` resolves to the record most recently written there, which
models the single in-place rewrite of the file-header record in `close`. -/

structure WBag where
  versionLine : String
  records : List (Nat × Rec)
  record_pos : Nat
  file_header_pos : Nat
  index_data_pos : Nat
  topics_recorded : List (String × MsgInfo)
  topic_indexes : List (String × List IndexEntry)
  writing_enabled : Bool
deriving DecidableEq, Repr

/-- Emit one record at the current write position
(`writeHeader`/`writeRecord` going through `writefil`, which advances
`record_pos_` by the bytes written). -/
def appendRec (b : WBag) (r : Rec) : WBag :=
  { b with records := b.records ++ [(b.record_pos, r)],
           record_pos := b.record_pos + r.size }

/-- The file-header record (`Bag::writeFileHeader`, rosbag.cpp:440-469):
fields `op`, `index_pos`(8 LE), body padded with spaces so the whole
record is at least `FILE_HEADER_LENGTH` bytes. -/
def fileHeaderRec (indexPos : Nat) : Rec :=
  let fields := [("op", [OP_FILE_HEADER]), ("index_pos", u64le indexPos)]
  let headerLen := fieldsSize fields
  let dataLen := if headerLen < FILE_HEADER_LENGTH
    then FILE_HEADER_LENGTH - headerLen else 0
  { fields := fields, data := List.replicate dataLen 32 }

/-- `Bag::writeFileHeader`: remember the record position, then emit the
record carrying the current `index_data_pos_`. -/
def writeFileHeaderM (b : WBag) : WBag :=
  let b := { b with file_header_pos := b.record_pos }
  appendRec b (fileHeaderRec b.index_data_pos)

/-- `Bag::open` in write mode (rosbag.cpp:117-138): reset `record_pos_`,
emit the version line `#ROSRECORD V1.2\n`, then the placeholder file
header with `index_pos = 0`. -/
def bagOpenWrite : WBag :=
  let vl := "#ROSRECORD V" ++ VERSION ++ "\n"
  writeFileHeaderM
    { versionLine := vl, records := [], record_pos := vl.length,
      file_header_pos := 0, index_data_pos := 0,
      topics_recorded := [], topic_indexes := [], writing_enabled := true }

/-- The message-definition record written on first sight of a topic
(rosbag.cpp:391-400): fields `op/topic/md5/type/def`, empty body. -/
def defRec (topic : String) (info : MsgInfo) : Rec :=
  { fields := [("op", [OP_MSG_DEF]), ("topic", strBytes topic),
               ("md5", strBytes info.md5sum), ("type", strBytes info.datatype),
               ("def", strBytes info.msg_def)],
    data := [] }

/-- The data record for one message (rosbag.cpp:417-432): fields
`op/topic/md5/type/sec/nsec` (+ `latching`/`callerid` when the connection
header carried a non-"0" latching value), body = serialized message. -/
def dataRec (topic : String) (info : MsgInfo) (t : RTime) (m : WMsg) : Rec :=
  { fields := [("op", [OP_MSG_DATA]), ("topic", strBytes topic),
               ("md5", strBytes info.md5sum), ("type", strBytes info.datatype),
               ("sec", u32le t.sec), ("nsec", u32le t.nsec)] ++
              (if m.latching
               then [("latching", strBytes "1"), ("callerid", strBytes m.callerid)]
               else []),
    data := m.payload }

/-- The `MsgInfo` snapshot captured on first write of a topic
(rosbag.cpp:330-334). -/
def snapInfo (topic : String) (m : WMsg) : MsgInfo :=
  { topic := topic, msg_def := m.msg_def, md5sum := m.md5sum,
    datatype := m.datatype }

/-- `Bag::write` (rosbag.cpp:308-438).  When `writing_enabled_` is false
the call only emits a rate-limited warning (wall-clock state is outside
the core) and returns.  Otherwise: admit the topic on first sight, append
the `IndexEntry{time, record_pos_}` to the topic's index before any bytes
are written, then emit the definition record (if needed) and the data
record. -/
def bagWrite (b : WBag) (topic : String) (t : RTime) (m : WMsg) : WBag :=
  if b.writing_enabled then
    let fresh := (lookupA b.topics_recorded topic).isNone
    let info := match lookupA b.topics_recorded topic with
      | some i => i
      | none => snapInfo topic m
    let b := if fresh then
        { b with topics_recorded := setA topic info b.topics_recorded,
                 topic_indexes := setA topic ([] : List IndexEntry) b.topic_indexes }
      else b
    let b := { b with
      topic_indexes := updateA topic (· ++ [⟨t, b.record_pos⟩])
        (getOrCreateA topic [] b.topic_indexes) }
    let b := if fresh then appendRec b (defRec topic info) else b
    appendRec b (dataRec topic info t m)
  else b

/-- Outcomes observable by a caller of `Bag::write`.  The C++ signature is
`void write(...)` and the implementation contains no `throw`; `threw`
exists so the absence of a surfaced error is expressible. -/
inductive WriteOutcome where
  | returned (b : WBag)
  | threw
deriving DecidableEq, Repr

/-- `Bag::write` with the state of `write_stream_.fail()` after the data
record made explicit (rosbag.cpp:432-437): on failure the code only logs
`ROS_FATAL` and falls off the end of the function, so both branches
return normally. -/
def bagWriteChecked (b : WBag) (topic : String) (t : RTime) (m : WMsg)
    (writeStreamFailed : Bool) : WriteOutcome :=
  let b' := bagWrite b topic t m
  if writeStreamFailed then
    WriteOutcome.returned b'  -- ROS_FATAL(...): log only, no throw
  else
    WriteOutcome.returned b'

/-- One serialized `IndexEntry`: `sec(4 LE) | nsec(4 LE) | pos(8 LE)`
(rosbag.cpp:535-541). -/
def encodeEntry (e : IndexEntry) : List Nat :=
  u32le e.time.sec ++ u32le e.time.nsec ++ u64le e.pos

/-- One per-topic index record (rosbag.cpp:523-541): fields
`op/topic/type/ver/count`, body = the serialized entries. -/
def indexRec (topic : String) (datatype : String)
    (entries : List IndexEntry) : Rec :=
  { fields := [("op", [OP_INDEX_DATA]), ("topic", strBytes topic),
               ("type", strBytes datatype), ("ver", u32le INDEX_VERSION),
               ("count", u32le entries.length)],
    data := entries.flatMap encodeEntry }

/-- `Bag::writeIndex` (rosbag.cpp:504-547): remember the position of the
first index record in `index_data_pos_`, emit one index record per topic,
then seek back to the file-header slot and rewrite the file header. -/
def writeIndexM (b : WBag) : WBag :=
  let b := { b with index_data_pos := b.record_pos }
  let b := b.topic_indexes.foldl
    (fun acc ti =>
      appendRec acc (indexRec ti.1
        (match lookupA acc.topics_recorded ti.1 with
         | some i => i.datatype
         | none => "")
        ti.2))
    b
  let b := { b with record_pos := b.file_header_pos }  -- seek(file_header_pos_)
  writeFileHeaderM b

/-- `Bag::close` (rosbag.cpp:238-263) for a bag open in write mode:
append the trailing index, rewrite the file header, clear the in-memory
maps.  (Signal masking and the stream close are outside the core.) -/
def bagClose (b : WBag) : WBag :=
  let b := writeIndexM b
  { b with topics_recorded := [], topic_indexes := [] }

/-- Fold `Bag::write` over a finite call sequence. -/
def writeAll (msgs : List (String × RTime × WMsg)) (b : WBag) : WBag :=
  msgs.foldl (fun acc x => bagWrite acc x.1 x.2.1 x.2.2) b

/-! ## The file as seen by a reader -/

/-- What reaches the disk: the version line and the emitted records. -/
structure BagFile where
  versionLine : String
  records : List (Nat × Rec)
deriving DecidableEq, Repr

def fileOf (b : WBag) : BagFile := ⟨b.versionLine, b.records⟩

/-- The record a reader positioned at byte offset `p` sees: the one most
recently written at `p`. -/
def recordAt (rs : List (Nat × Rec)) (p : Nat) : Option Rec :=
  ((rs.filter (fun pr => pr.1 = p)).getLast?).map (·.2)

/-! ## Opening for reading: the stream-state check (rosbag.cpp:140-148) -/

/-- Fail bits of the two stream members right after
`read_stream_.open(...)` in read mode: the read stream carries the open
failure, the `std::ofstream` member was never opened so its fail bit is
clear. -/
structure StreamBits where
  read_fail : Bool
  write_fail : Bool
deriving DecidableEq, Repr

def afterReadOpen (readOpenFailed : Bool) : StreamBits :=
  { read_fail := readOpenFailed, write_fail := false }

/-- The check `Bag::open` performs after opening the read stream
(rosbag.cpp:144): it inspects `write_stream_.fail()`; `true` means the
open is aborted with `return false`. -/
def openReadAborts (s : StreamBits) : Bool := s.write_fail

/-! ## Reader bootstrap -/

/-- Digits to a number (the `%d` conversions of `sscanf`). -/
def natOfDigits (ds : List Char) : Nat :=
  ds.foldl (fun acc c => acc * 10 + (c.toNat - 48)) 0

/-- `sscanf(version_line, "#ROS%s V%d.%d", ...)` on a well-formed version
line: literal `#ROS`, a non-space word, a space, `V`, and the two decimal
version numbers.  `none` models a line from which no version numbers are
parsed (the C++ then reads uninitialized variables). -/
def parseVersionLine (s : String) : Option (Nat × Nat) :=
  match s.data with
  | '#' :: 'R' :: 'O' :: 'S' :: rest =>
    match rest.dropWhile (fun c => c ≠ ' ') with
    | ' ' :: 'V' :: rest2 =>
      let ds := rest2.takeWhile Char.isDigit
      match ds, rest2.dropWhile Char.isDigit with
      | [], _ => none
      | _ :: _, '.' :: rest3 =>
        match rest3.takeWhile Char.isDigit with
        | [] => none
        | ds2 => some (natOfDigits ds, natOfDigits ds2)
      | _ :: _, _ => none
    | _ => none
  | _ => none

/-- The current version numbers, `sscanf(VERSION.c_str(), "%d.%d", ...)`
with `VERSION = "1.2"`. -/
def CUR_VERSION_MAJOR : Nat := 1
def CUR_VERSION_MINOR : Nat := 2

/-- `Bag::readVersion` (rosbag.cpp:163-190): parse the version line, apply
the legacy fix-up (an unparsed major of 0 on a `#`-line becomes 1), then
the support check `if (major != cur_major && minor != cur_minor)
assert(0)`.  `none` models the `assert(0)`; `some` returns the accepted
version pair. -/
def readVersionM (line : String) : Option (Nat × Nat) :=
  match parseVersionLine line with
  | none => none
  | some (maj, mnr) =>
    let maj := if maj = 0 ∧ line.data.head? = some '#' then 1 else maj
    if maj ≠ CUR_VERSION_MAJOR ∧ mnr ≠ CUR_VERSION_MINOR then none
    else some (maj, mnr)

/-- `Bag::readFileHeader` (rosbag.cpp:471-502): read the record right
after the version line, check the `op` field (1 byte, asserted to be
`OP_FILE_HEADER`), extract the 8-byte `index_pos` field, skip the padded
body.  `none` covers a failed read, a failed field check and a failed
assert alike; `some` returns the extracted `index_data_pos_`. -/
def readFileHeaderM (f : BagFile) : Option Nat :=
  match recordAt f.records f.versionLine.length with
  | none => none
  | some r =>
    match checkFieldM r "op" 1 1 with
    | none => none
    | some opv =>
      if opv ≠ [OP_FILE_HEADER] then none  -- assert(op == OP_FILE_HEADER)
      else
        match checkFieldM r "index_pos" 8 8 with
        | none => none
        | some v => some (decodeLE v)

/-- Split the body of an index record into entries, 16 bytes each
(rosbag.cpp:615-629): `sec(4) | nsec(4) | pos(8)`. -/
def decodeEntries : Nat → List Nat → List IndexEntry
  | 0, _ => []
  | n + 1, bs =>
    ⟨⟨decodeLE (bs.take 4), decodeLE ((bs.drop 4).take 4)⟩,
     decodeLE ((bs.drop 8).take 8)⟩ :: decodeEntries n (bs.drop 16)

/-- One iteration of the `Bag::readIndex` loop (rosbag.cpp:555-631) plus
the loop itself, walking the records from `index_data_pos_` to the end of
the file.  Reaching a position with no record models the EOF that ends
the loop; `none` models a failed field check (`return false`) or a failed
assert.  Fuel bounds the walk; one unit per record suffices. -/
def readIndexLoop (rs : List (Nat × Rec)) :
    Nat → Nat → List (String × List IndexEntry) →
    Option (List (String × List IndexEntry))
  | 0, _, _ => none
  | fuel + 1, p, acc =>
    match recordAt rs p with
    | none => some acc  -- EOF: reset the stream and return true
    | some r =>
      match checkFieldM r "op" 1 1 with
      | none => none
      | some opv =>
        if opv ≠ [OP_INDEX_DATA] then none  -- assert(op == OP_INDEX_DATA)
        else match checkFieldM r "ver" 4 4 with
          | none => none
          | some verv =>
            if decodeLE verv ≠ INDEX_VERSION then none  -- assert(index_version == INDEX_VERSION)
            else match checkFieldM r "topic" 1 UINT_MAX with
              | none => none
              | some topicv =>
                match checkFieldM r "type" 1 UINT_MAX with
                | none => none
                | some _ =>
                  match checkFieldM r "count" 4 4 with
                  | none => none
                  | some countv =>
                    let count := decodeLE countv
                    if count * 16 ≠ r.data.length then none  -- assert(count*sizeof(IndexEntry) == data_size)
                    else
                      let topic := bytesToStr topicv
                      let parsed := decodeEntries count r.data
                      let acc :=
                        if (lookupA acc topic).isSome
                        then updateA topic (· ++ parsed) acc
                        else insertSortedA topic parsed acc
                      readIndexLoop rs fuel (p + r.size) acc

/-- `Bag::readDef` (rosbag.cpp:657-724) for the record at `pos`, acting on
the accumulated `topics_recorded_` map.  A failed header read or field
check makes the function `return false` without mutating state (and
`readDefs` ignores the result), modelled as `some acc`; the
`assert(op == OP_MSG_DEF)` is `none`. -/
def readDefM (rs : List (Nat × Rec)) (pos : Nat)
    (acc : List (String × MsgInfo)) : Option (List (String × MsgInfo)) :=
  match recordAt rs pos with
  | none => some acc
  | some r =>
    match checkFieldM r "op" 1 1 with
    | none => some acc
    | some opv =>
      if opv ≠ [OP_MSG_DEF] then none  -- assert(op == OP_MSG_DEF)
      else match checkFieldM r "topic" 1 UINT_MAX with
        | none => some acc
        | some topicv =>
          match checkFieldM r "md5" 32 32 with
          | none => some acc
          | some md5v =>
            match checkFieldM r "type" 1 UINT_MAX with
            | none => some acc
            | some typev =>
              -- the def field may be empty (legacy bags): min_len 0
              match checkFieldM r "def" 0 UINT_MAX with
              | none => some acc
              | some defv =>
                let topic := bytesToStr topicv
                if (lookupA acc topic).isSome then some acc
                else some (insertSortedA topic
                  ⟨topic, bytesToStr defv, bytesToStr md5v, bytesToStr typev⟩
                  acc)

/-- `Bag::readDefs` (rosbag.cpp:640-655): for every topic in
`topic_indexes_`, seek to the first index entry's `pos` and run `readDef`.
The code takes `topic_index.begin()` and dereferences it without checking
for emptiness; on an empty index this is undefined behaviour, modelled as
`none`. -/
def readDefsM (rs : List (Nat × Rec)) :
    List (String × List IndexEntry) → List (String × MsgInfo) →
    Option (List (String × MsgInfo))
  | [], acc => some acc
  | (_, entries) :: rest, acc =>
    match entries.head? with
    | none => none  -- *begin() of an empty vector: undefined behaviour
    | some e =>
      match readDefM rs e.pos acc with
      | none => none
      | some acc' => readDefsM rs rest acc'

/-- The reader's rebuilt state after bootstrap. -/
structure RBag where
  topics_recorded : List (String × MsgInfo)
  topic_indexes : List (String × List IndexEntry)
deriving DecidableEq, Repr

/-- The read-mode bootstrap sequence of `Bag::open` (rosbag.cpp:153-156):
`readVersion(); readFileHeader(); readIndex(); readDefs();`.  `none`
models any step hitting an `assert` or hard failure. -/
def bagOpenReadM (f : BagFile) : Option RBag :=
  match readVersionM f.versionLine with
  | none => none
  | some _ =>
    match readFileHeaderM f with
    | none => none
    | some idx =>
      match readIndexLoop f.records (f.records.length + 1) idx [] with
      | none => none
      | some tind =>
        match readDefsM f.records tind [] with
        | none => none
        | some trec => some ⟨trec, tind⟩

/-! ## `Bag::instantiate` (rosbag.h:193-279) -/

/-- The definition-skipping loop: read the record at `pos`; while its
opcode is `OP_MSG_DEF` keep reading the immediately following record
(definition records have no body, so the next record starts right after
the current one's framing).  Returns the first non-definition record. -/
def instantiateLoop (rs : List (Nat × Rec)) : Nat → Nat → Option Rec
  | 0, _ => none
  | fuel + 1, p =>
    match recordAt rs p with
    | none => none
    | some r =>
      match checkFieldM r "op" 1 1 with
      | none => none
      | some opv =>
        if opv = [OP_MSG_DEF] then instantiateLoop rs fuel (p + r.size)
        else some r

/-- `Bag::instantiate<T>(pos)` up to deserialization: skip definition
records, require a data record (`assert(op == OP_MSG_DATA)`), check the
`topic`, `md5` and `type` fields, and return the body bytes that the C++
hands to `deserialize` (the type-trait comparison against `T` lives in
the caller, `MessageInstance::instantiate`). -/
def instantiateAt (rs : List (Nat × Rec)) (pos : Nat) : Option (List Nat) :=
  match instantiateLoop rs (rs.length + 1) pos with
  | none => none
  | some r =>
    match checkFieldM r "op" 1 1 with
    | none => none
    | some opv =>
      if opv ≠ [OP_MSG_DATA] then none  -- assert(op == OP_MSG_DATA)
      else match checkFieldM r "topic" 1 UINT_MAX with
        | none => none
        | some _ =>
          match checkFieldM r "md5" 32 32 with
          | none => none
          | some _ =>
            match checkFieldM r "type" 1 UINT_MAX with
            | none => none
            | some _ => some r.data

/-- First character as `c_str()[0]` sees it: NUL on an empty string. -/
def strFront (s : String) : Char := s.data.headD (Char.ofNat 0)

/-- `MessageInstance::instantiate<T>` (rosbag.h:560-570): if the
fingerprint of `T` differs from the recorded md5sum and does not begin
with `'*'`, return the empty pointer; otherwise delegate to
`Bag::instantiate<T>(index_->pos)`. -/
def miInstantiate (fingerprintT : String) (info : MsgInfo)
    (rs : List (Nat × Rec)) (pos : Nat) : Option (List Nat) :=
  if fingerprintT ≠ info.md5sum ∧ strFront fingerprintT ≠ '*' then none
  else instantiateAt rs pos

/-! ## The merge view (`Bag::getViewByTopic`, rosbag.cpp:841-870, and the
`View::iterator` traversal, rosbag.cpp:874-942)

`MergeHelper`/`MergeQueue` are declared outside `src/`; per the spec the
queue is a priority queue whose top is the helper whose current entry has
the smallest timestamp (the in-tree `ViewIterHelperCompare`, rosbag.h:443,
orders by `iter->time` with `>`).  A helper is the C++
`(iter, end, msg_info)` triple, carried as the current entry plus the
remaining entries of its range. -/

structure MergeHelper where
  cur : IndexEntry
  rest : List IndexEntry
  info : MsgInfo
deriving DecidableEq, Repr

/-- `std::lower_bound(begin, end, start_time, IndexEntryCompare())` on a
range partitioned by `entry.time < start_time`: the first position whose
entry is not below the bound. -/
def lowerB (entries : List IndexEntry) (t : RTime) : Nat :=
  (entries.takeWhile (fun e => e.time.ltb t)).length

/-- `std::upper_bound(begin, end, end_time, IndexEntryCompare())` on a
range partitioned by `¬(end_time < entry.time)`: the first position whose
entry is strictly above the bound. -/
def upperB (entries : List IndexEntry) (t : RTime) : Nat :=
  (entries.takeWhile (fun e => !t.ltb e.time)).length

/-- The `[lower_bound, upper_bound)` slice of one topic's index. -/
def sliceFor (entries : List IndexEntry) (t0 t1 : RTime) : List IndexEntry :=
  (entries.take (upperB entries t1)).drop (lowerB entries t0)

/-- Build the merge queue for a query (the loop of `getViewByTopic`): for
each requested topic present in both maps, take the binary-search slice
and keep it only when non-empty (`if (h.iter != h.end)`). -/
def helpersFor (tind : List (String × List IndexEntry))
    (trec : List (String × MsgInfo)) (topics : List String)
    (t0 t1 : RTime) : List MergeHelper :=
  topics.foldr
    (fun tp acc =>
      match lookupA tind tp, lookupA trec tp with
      | some entries, some info =>
        match sliceFor entries t0 t1 with
        | [] => acc
        | e :: tl => ⟨e, tl, info⟩ :: acc
      | _, _ => acc)
    []

/-- Total number of entries still queued. -/
def qsize (q : List MergeHelper) : Nat :=
  (q.map (fun h => 1 + h.rest.length)).sum

/-- All `(msg_info, entry)` pairs a helper will eventually yield. -/
def hItems (h : MergeHelper) : List (MsgInfo × IndexEntry) :=
  (h.info, h.cur) :: h.rest.map (fun e => (h.info, e))

/-- All pairs the whole queue will eventually yield. -/
def qItems (q : List MergeHelper) : List (MsgInfo × IndexEntry) :=
  q.flatMap hItems

/-- `merge_queue.top()` and the queue without it: a helper whose current
entry has minimal timestamp (ties resolved towards the earlier list
position; the spec leaves heap tie-breaking unspecified). -/
def qMin : List MergeHelper → Option (MergeHelper × List MergeHelper)
  | [] => none
  | h :: t =>
    match qMin t with
    | none => some (h, [])
    | some (h', t') =>
      if h.cur.time.leb h'.cur.time then some (h, t) else some (h', h :: t')

/-- The traversal loop shared by `View::iterator::increment` /
`dereference` (rosbag.cpp:922-942) and `Bag::getMessageListByTopic`
(rosbag.cpp:817-834): pop the top helper, yield its `(msg_info, *iter)`,
advance its iterator and re-queue it unless exhausted.  Fuel bounds the
loop; `qsize` units suffice. -/
def mergeFuel : Nat → List MergeHelper → List (MsgInfo × IndexEntry)
  | 0, _ => []
  | fuel + 1, q =>
    match qMin q with
    | none => []
    | some (h, q') =>
      (h.info, h.cur) ::
        mergeFuel fuel
          (match h.rest with
           | [] => q'
           | e :: tl => ⟨e, tl, h.info⟩ :: q')

/-- Everything a `View` over `(topics, [t0, t1])` yields, in order: the
`(MsgInfo, IndexEntry)` pairs backing the `MessageInstance`s. -/
def viewListM (tind : List (String × List IndexEntry))
    (trec : List (String × MsgInfo)) (topics : List String)
    (t0 t1 : RTime) : List (MsgInfo × IndexEntry) :=
  let q := helpersFor tind trec topics t0 t1
  mergeFuel (qsize q) q

/-- The observable triple for one yielded message: its topic (from the
`MsgInfo`), its timestamp (from the `IndexEntry`) and the payload bytes
`instantiate` reads back at the entry's offset. -/
def viewTriples (f : BagFile) (rb : RBag) (topics : List String)
    (t0 t1 : RTime) : List (String × RTime × Option (List Nat)) :=
  (viewListM rb.topic_indexes rb.topics_recorded topics t0 t1).map
    (fun pr => (pr.1.topic, pr.2.time, instantiateAt f.records pr.2.pos))

/-- The round trip of claim C1: write the sequence, close, reopen for
reading, view all topics over `[TIME_MIN, TIME_MAX)`. -/
def roundTrip (msgs : List (String × RTime × WMsg)) :
    Option (List (String × RTime × Option (List Nat))) :=
  let f := fileOf (bagClose (writeAll msgs bagOpenWrite))
  (bagOpenReadM f).map
    (fun rb => viewTriples f rb (rb.topic_indexes.map (·.1)) TIME_MIN TIME_MAX)

/-- Timestamps are non-decreasing along the yielded list. -/
def timesNondecr (l : List (String × RTime × Option (List Nat))) : Prop :=
  l.Chain' (fun a b => a.2.1.leb b.2.1 = true)

/-- The sublist of the written call sequence that hit one topic. -/
def msgsOn (topic : String) (msgs : List (String × RTime × WMsg)) :
    List (String × RTime × WMsg) :=
  msgs.filter (fun x => x.1 = topic)

/-! ## Layout predicates used in the proofs -/

/-- The records form a gapless chain of adjacent byte ranges from `s` to
`e` — the shape a sequential append-only writer produces. -/
def chainOk : List (Nat × Rec) → Nat → Nat → Prop
  | [], s, e => s = e
  | (p, r) :: t, s, e => p = s ∧ chainOk t (s + r.size) e

/-- The index records `Bag::writeIndex` appends starting at position `p`
(one per topic, in map order, with the datatype looked up in
`topics_recorded_`). -/
def mkIdx (trec : List (String × MsgInfo)) :
    List (String × List IndexEntry) → Nat → List (Nat × Rec)
  | [], _ => []
  | (tp, es) :: t, p =>
    let r := indexRec tp
      (match lookupA trec tp with
       | some i => i.datatype
       | none => "") es
    (p, r) :: mkIdx trec t (p + r.size)

/-- End position of the appended index block. -/
def mkIdxEnd (trec : List (String × MsgInfo)) :
    List (String × List IndexEntry) → Nat → Nat
  | [], p => p
  | (tp, es) :: t, p =>
    mkIdxEnd trec t
      (p + (indexRec tp
        (match lookupA trec tp with
         | some i => i.datatype
         | none => "") es).size)

/-- Shape invariant of a bag that `open(Write)` produced and a run of
`write` calls extended: the version line is fixed, the file is a gapless
record chain starting with the placeholder file header right after the
version line, no index record has been emitted yet, and writing is
enabled. -/
structure WFile (b : WBag) : Prop where
  vline : b.versionLine = "#ROSRECORD V1.2\n"
  fhpos : b.file_header_pos = 16
  enabled : b.writing_enabled = true
  first : ∃ rest, b.records = (16, fileHeaderRec 0) :: rest
  chain : chainOk b.records 16 b.record_pos
  noIdx : ∀ pr ∈ b.records, opOf pr.2 ≠ some OP_INDEX_DATA

/-- Side conditions on one `write` call under which the reader-side field
checks all pass and the fixed-width on-disk encodings round-trip: a
non-empty topic and datatype of field-checkable length, the 32-character
fingerprint, a definition of checkable length, and a timestamp inside
`[TIME_MIN, TIME_MAX]` with a representable nanosecond count. -/
def GoodMsg (x : String × RTime × WMsg) : Prop :=
  x.1 ≠ "" ∧ x.1.length ≤ UINT_MAX ∧
  x.2.2.datatype ≠ "" ∧ x.2.2.datatype.length ≤ UINT_MAX ∧
  x.2.2.md5sum.length = 32 ∧ x.2.2.msg_def.length ≤ UINT_MAX ∧
  TIME_MIN.leb x.2.1 = true ∧ x.2.1.leb TIME_MAX = true ∧
  x.2.1.nsec < 2 ^ 32

/-- How one in-memory index entry corresponds to one write call on the
partially written file: the entry carries the call's timestamp and points
either directly at the call's data record or at the topic's definition
record immediately followed by it, all inside `[16, L)`. -/
def EntrySpec (R : List (Nat × Rec)) (L : Nat) (tp : String)
    (info : MsgInfo) (e : IndexEntry) (x : String × RTime × WMsg) : Prop :=
  e.time = x.2.1 ∧ 16 < e.pos ∧
  ((recordAt R e.pos = some (dataRec tp info x.2.1 x.2.2) ∧
      e.pos + (dataRec tp info x.2.1 x.2.2).size ≤ L)
   ∨ (recordAt R e.pos = some (defRec tp info) ∧
      recordAt R (e.pos + (defRec tp info).size)
        = some (dataRec tp info x.2.1 x.2.2) ∧
      e.pos + (defRec tp info).size
        + (dataRec tp info x.2.1 x.2.2).size ≤ L))

/-- Everything the round-trip proof tracks about a writer that has
processed the calls `msgs`: the layout invariant `WFile`, the sorted
`std::map` key structure, and the correspondence between the in-memory
maps, the emitted records and the processed calls. -/
structure WData (msgs : List (String × RTime × WMsg)) (b : WBag) : Prop where
  wf : WFile b
  keys_chain : List.Chain' (fun a b => strLt a b = true)
    (b.topic_indexes.map Prod.fst)
  keys_nodup : (b.topic_indexes.map Prod.fst).Nodup
  trec_keys : b.topics_recorded.map Prod.fst = b.topic_indexes.map Prod.fst
  hnone : ∀ tp, lookupA b.topic_indexes tp = none → msgsOn tp msgs = []
  hinfo : ∀ tp info, lookupA b.topics_recorded tp = some info →
    ∃ x xs, msgsOn tp msgs = x :: xs ∧ info = snapInfo tp x.2.2
  hind : ∀ tp entries, lookupA b.topic_indexes tp = some entries →
    ∃ info, lookupA b.topics_recorded tp = some info ∧
      List.Forall₂ (EntrySpec b.records b.record_pos tp info) entries
        (msgsOn tp msgs) ∧
      (∀ e es, entries = e :: es →
        recordAt b.records e.pos = some (defRec tp info))

/-- Is this positioned record an index block? -/
def isIndexRec (pr : Nat × Rec) : Bool := opOf pr.2 == some OP_INDEX_DATA

/-! ## Concrete fixtures used by counterexamples and witnesses -/

def exMd5 : String := "00000000000000000000000000000000"

def exMsgA : WMsg := ⟨"pkg/T", exMd5, "defn", [7], false, ""⟩

def exMsgB : WMsg := ⟨"pkg/T", exMd5, "defn", [9], false, ""⟩

/-- Two messages on one topic with decreasing timestamps. -/
def c1input : List (String × RTime × WMsg) :=
  [("a", ⟨3, 0⟩, exMsgA), ("a", ⟨1, 0⟩, exMsgB)]

/-- A well-behaved alternating two-topic sequence (spec scenario S2). -/
def c1goodInput : List (String × RTime × WMsg) :=
  [("a", ⟨1, 0⟩, exMsgA), ("b", ⟨2, 0⟩, exMsgB),
   ("a", ⟨3, 0⟩, exMsgB), ("b", ⟨4, 0⟩, exMsgA)]

def c2info : MsgInfo := ⟨"a", "", exMd5, "pkg/T"⟩

/-- One topic whose single index entry sits exactly at the query's end
time. -/
def c2tind : List (String × List IndexEntry) := [("a", [⟨⟨5, 0⟩, 100⟩])]

def c2trec : List (String × MsgInfo) := [("a", c2info)]

/-- A bag state whose only topic has an empty index. -/
def c9tind : List (String × List IndexEntry) := [("a", [])]

/-- A freshly opened writer with logging disabled by the disk-space
supervisor. -/
def c7bag : WBag := { bagOpenWrite with writing_enabled := false }

def c9info : MsgInfo := ⟨"ignored", "a def", exMd5, "pkg/T"⟩

/-- A file holding one definition record for topic `a` at offset 0. -/
def c9rs : List (Nat × Rec) := [(0, defRec "a" c9info)]

/-- One topic whose index points at the definition record. -/
def c9tindGood : List (String × List IndexEntry) := [("a", [⟨⟨1, 0⟩, 0⟩])]

/-! # Lemmas

## Bytes and strings -/

theorem u32le_length (n : Nat) : (u32le n).length = 4 := rfl

theorem u64le_length (n : Nat) : (u64le n).length = 8 := rfl

theorem decodeLE_u32le (n : Nat) : decodeLE (u32le n) = n % 2 ^ 32 := by
  simp [u32le, decodeLE]; omega

set_option maxRecDepth 100000 in
theorem decodeLE_u64le (n : Nat) : decodeLE (u64le n) = n % 2 ^ 64 := by
  show n % 256 + 256 * (n / 256 % 256 + 256 * (n / 65536 % 256 +
    256 * (n / 16777216 % 256 + 256 * (n / 4294967296 % 256 +
    256 * (n / 1099511627776 % 256 + 256 * (n / 281474976710656 % 256 +
    256 * (n / 72057594037927936 % 256 + 256 * 0))))))) = n % 2 ^ 64
  omega

theorem strBytes_length (s : String) : (strBytes s).length = s.length := by
  show (s.data.map Char.toNat).length = s.length
  rw [List.length_map]
  rfl

theorem bytesToStr_strBytes (s : String) : bytesToStr (strBytes s) = s := by
  cases s with
  | mk data =>
    simp only [bytesToStr, strBytes, List.map_map]
    congr 1
    induction data with
    | nil => rfl
    | cons c t ih => simp [ih, Char.ofNat_toNat]

/-! ## Times -/

theorem RTime.leb_iff_not_ltb (a b : RTime) : a.leb b = !b.ltb a := by
  rw [Bool.eq_iff_iff]
  simp [RTime.ltb, RTime.leb]
  omega

theorem RTime.leb_trans {a b c : RTime} (h1 : a.leb b = true)
    (h2 : b.leb c = true) : a.leb c = true := by
  simp [RTime.leb] at *; omega

theorem RTime.leb_total (a b : RTime) : a.leb b = true ∨ b.leb a = true := by
  simp [RTime.leb]; omega

theorem RTime.leb_refl (a : RTime) : a.leb a = true := by
  simp [RTime.leb]

theorem Rec.size_pos (r : Rec) : 8 ≤ r.size := by
  simp [Rec.size]; omega

/-! ## Association lists -/

theorem lookupA_updateA {α : Type} (k : String) (f : α → α)
    (l : List (String × α)) :
    lookupA (updateA k f l) k = (lookupA l k).map f := by
  induction l with
  | nil => rfl
  | cons h t ih =>
    obtain ⟨k', v⟩ := h
    by_cases hk : k' = k
    · simp [updateA, lookupA, hk]
    · simp [updateA, lookupA, hk, ih]

theorem lookupA_updateA_ne {α : Type} {k k' : String} (hk : k ≠ k')
    (f : α → α) (l : List (String × α)) :
    lookupA (updateA k f l) k' = lookupA l k' := by
  induction l with
  | nil => rfl
  | cons h t ih =>
    obtain ⟨k'', v⟩ := h
    by_cases h1 : k'' = k
    · subst h1
      simp [updateA, lookupA, hk, Ne.symm hk]
    · simp [updateA, lookupA, h1, ih]

theorem lookupA_insertSortedA_self {α : Type} (k : String) (v : α)
    {l : List (String × α)} (habs : lookupA l k = none) :
    lookupA (insertSortedA k v l) k = some v := by
  induction l with
  | nil => simp [insertSortedA, lookupA]
  | cons h t ih =>
    obtain ⟨k', v'⟩ := h
    simp only [lookupA] at habs
    by_cases hk : k' = k
    · simp [hk] at habs
    · simp only [hk, if_false] at habs
      by_cases hlt : strLt k k'
      · simp [insertSortedA, hlt, lookupA, hk]
      · simp [insertSortedA, hlt, lookupA, hk, ih habs]

theorem lookupA_insertSortedA_ne {α : Type} {k k' : String} (hk : k ≠ k')
    (v : α) (l : List (String × α)) :
    lookupA (insertSortedA k v l) k' = lookupA l k' := by
  induction l with
  | nil => simp [insertSortedA, lookupA, hk]
  | cons h t ih =>
    obtain ⟨k'', v''⟩ := h
    by_cases hlt : strLt k k''
    · simp [insertSortedA, hlt, lookupA, hk]
    · simp [insertSortedA, hlt, lookupA, ih]

theorem lookupA_setA_self {α : Type} (k : String) (v : α)
    (l : List (String × α)) : lookupA (setA k v l) k = some v := by
  unfold setA
  by_cases h : (lookupA l k).isSome
  · simp only [h, if_true]
    rw [lookupA_updateA]
    obtain ⟨w, hw⟩ := Option.isSome_iff_exists.mp h
    simp [hw]
  · simp only [h, if_false]
    exact lookupA_insertSortedA_self k v (Option.not_isSome_iff_eq_none.mp h)

theorem lookupA_setA_ne {α : Type} {k k' : String} (hk : k ≠ k') (v : α)
    (l : List (String × α)) : lookupA (setA k v l) k' = lookupA l k' := by
  unfold setA
  by_cases h : (lookupA l k).isSome
  · simp only [h, if_true]
    exact lookupA_updateA_ne hk _ l
  · simp only [h, if_false]
    exact lookupA_insertSortedA_ne hk v l

theorem updateA_keys {α : Type} (k : String) (f : α → α)
    (l : List (String × α)) : (updateA k f l).map Prod.fst = l.map Prod.fst := by
  induction l with
  | nil => rfl
  | cons h t ih =>
    obtain ⟨k', v⟩ := h
    by_cases hk : k' = k <;> simp [updateA, hk, ih]

/-- Keys found by `lookupA` are in the key list. -/
theorem lookupA_isSome_mem {α : Type} {l : List (String × α)} {k : String}
    (h : (lookupA l k).isSome) : k ∈ l.map Prod.fst := by
  induction l with
  | nil => simp [lookupA] at h
  | cons hd t ih =>
    obtain ⟨k', v⟩ := hd
    by_cases hk : k' = k
    · simp [hk]
    · simp only [lookupA, hk, if_false] at h
      simp [ih h]

theorem lookupA_none_not_mem {α : Type} {l : List (String × α)} {k : String}
    (h : lookupA l k = none) : k ∉ l.map Prod.fst := by
  induction l with
  | nil => simp
  | cons hd t ih =>
    obtain ⟨k', v⟩ := hd
    simp only [lookupA] at h
    by_cases hk : k' = k
    · simp [hk] at h
    · simp only [hk, if_false] at h
      simp [ih h, hk, Ne.symm hk]

/-- With pairwise-distinct keys, membership determines `lookupA`. -/
theorem lookupA_of_mem_nodup {α : Type} {l : List (String × α)}
    (hnd : (l.map Prod.fst).Nodup) {k : String} {v : α} (hm : (k, v) ∈ l) :
    lookupA l k = some v := by
  induction l with
  | nil => simp at hm
  | cons hd t ih =>
    obtain ⟨k', v'⟩ := hd
    simp only [List.map_cons, List.nodup_cons] at hnd
    rcases List.mem_cons.mp hm with h1 | h1
    · obtain ⟨rfl, rfl⟩ := Prod.mk.injEq .. ▸ h1
      simp [lookupA]
    · have hk : k' ≠ k := by
        rintro rfl
        exact hnd.1 (List.mem_map.mpr ⟨(k', v), h1, rfl⟩)
      simp [lookupA, hk, ih hnd.2 h1]

theorem lookupA_getOrCreateA_self {α : Type} (k : String) (d : α)
    (l : List (String × α)) :
    lookupA (getOrCreateA k d l) k = some ((lookupA l k).getD d) := by
  unfold getOrCreateA
  by_cases h : (lookupA l k).isSome
  · obtain ⟨w, hw⟩ := Option.isSome_iff_exists.mp h
    simp [h, hw]
  · have hn := Option.not_isSome_iff_eq_none.mp h
    simp [h, hn, lookupA_insertSortedA_self k d hn]

/-! ## The lexicographic string order -/

theorem charToNat_inj {a b : Char} (h : a.toNat = b.toNat) : a = b :=
  Char.ext (UInt32.toNat.inj h)

theorem strLtCore_irrefl : ∀ l : List Char, strLtCore l l = false
  | [] => rfl
  | a :: as => by
    simp only [strLtCore, Nat.lt_irrefl, if_false]
    exact strLtCore_irrefl as

theorem strLtCore_asymm : ∀ {l₁ l₂ : List Char},
    strLtCore l₁ l₂ = true → strLtCore l₂ l₁ = false
  | [], [] => by simp [strLtCore]
  | [], _ :: _ => fun _ => rfl
  | _ :: _, [] => by simp [strLtCore]
  | a :: as, b :: bs => by
    intro h
    simp only [strLtCore] at h ⊢
    by_cases h1 : a.toNat < b.toNat
    · have h2 : ¬b.toNat < a.toNat := by omega
      simp [h1, h2]
    · by_cases h2 : b.toNat < a.toNat
      · simp [h1, h2] at h
      · simp only [h1, h2, if_false] at h ⊢
        exact strLtCore_asymm h

theorem strLtCore_trans : ∀ {l₁ l₂ l₃ : List Char},
    strLtCore l₁ l₂ = true → strLtCore l₂ l₃ = true → strLtCore l₁ l₃ = true
  | [], [], _ => by simp [strLtCore]
  | [], _ :: _, l₃ => by
    intro _ h2
    cases l₃ with
    | nil => simp [strLtCore] at h2
    | cons c cs => rfl
  | _ :: _, [], _ => by simp [strLtCore]
  | a :: as, b :: bs, [] => by
    intro _ h2
    simp [strLtCore] at h2
  | a :: as, b :: bs, c :: cs => by
    intro h1 h2
    simp only [strLtCore] at h1 h2 ⊢
    by_cases hab : a.toNat < b.toNat
    · by_cases hbc : b.toNat < c.toNat
      · have : a.toNat < c.toNat := by omega
        simp [this]
      · by_cases hcb : c.toNat < b.toNat
        · simp [hab, hbc, hcb] at h2
        · have hb : b.toNat = c.toNat := by omega
          have : a.toNat < c.toNat := by omega
          simp [this]
    · by_cases hba : b.toNat < a.toNat
      · simp [hab, hba] at h1
      · have hab' : a.toNat = b.toNat := by omega
        simp only [hab, hba, if_false] at h1
        by_cases hbc : b.toNat < c.toNat
        · have : a.toNat < c.toNat := by omega
          simp [this]
        · by_cases hcb : c.toNat < b.toNat
          · simp [hbc, hcb] at h2
          · simp only [hbc, hcb, if_false] at h2
            have hac : ¬a.toNat < c.toNat := by omega
            have hca : ¬c.toNat < a.toNat := by omega
            simp only [hac, hca, if_false]
            exact strLtCore_trans h1 h2

theorem strLtCore_connex : ∀ {l₁ l₂ : List Char}, l₁ ≠ l₂ →
    strLtCore l₁ l₂ = true ∨ strLtCore l₂ l₁ = true
  | [], [] => fun h => absurd rfl h
  | [], _ :: _ => fun _ => Or.inl rfl
  | _ :: _, [] => fun _ => Or.inr rfl
  | a :: as, b :: bs => by
    intro h
    rcases Nat.lt_trichotomy a.toNat b.toNat with h1 | h1 | h1
    · left
      simp [strLtCore, h1]
    · have hab : a = b := charToNat_inj h1
      subst hab
      have hne : as ≠ bs := by
        intro h2
        exact h (by rw [h2])
      rcases strLtCore_connex hne with h2 | h2
      · left
        simp [strLtCore, h2]
      · right
        simp [strLtCore, h2]
    · right
      simp [strLtCore, h1]

theorem strLt_irrefl (a : String) : strLt a a = false := strLtCore_irrefl _

theorem strLt_asymm {a b : String} (h : strLt a b = true) :
    strLt b a = false := strLtCore_asymm h

theorem strLt_trans {a b c : String} (h1 : strLt a b = true)
    (h2 : strLt b c = true) : strLt a c = true := strLtCore_trans h1 h2

theorem strLt_connex {a b : String} (h : a ≠ b) :
    strLt a b = true ∨ strLt b a = true := by
  apply strLtCore_connex
  intro hd
  apply h
  cases a with
  | mk da =>
    cases b with
    | mk db => exact congrArg String.mk hd

theorem chain_strLt_head {x : String} {l : List String}
    (h : List.Chain' (fun a b => strLt a b = true) (x :: l)) :
    ∀ y ∈ l, strLt x y = true := by
  induction l generalizing x with
  | nil => simp
  | cons y t ih =>
    rw [List.chain'_cons] at h
    intro z hz
    rcases List.mem_cons.mp hz with rfl | hz
    · exact h.1
    · exact strLt_trans h.1 (ih h.2 z hz)

/-! ## More association-list facts -/

theorem lookupA_eq_none_of_not_mem {α : Type} {l : List (String × α)}
    {k : String} (h : k ∉ l.map Prod.fst) : lookupA l k = none := by
  induction l with
  | nil => rfl
  | cons hd t ih =>
    obtain ⟨k', v⟩ := hd
    simp only [List.map_cons, List.mem_cons] at h
    push_neg at h
    simp only [lookupA, Ne.symm h.1, if_false]
    exact ih h.2

theorem lookupA_isSome_of_mem {α : Type} {l : List (String × α)}
    {k : String} {v : α} (h : (k, v) ∈ l) : (lookupA l k).isSome := by
  induction l with
  | nil => simp at h
  | cons hd t ih =>
    obtain ⟨k', v'⟩ := hd
    rcases List.mem_cons.mp h with heq | hm
    · obtain ⟨rfl, rfl⟩ := Prod.mk.injEq .. ▸ heq
      simp [lookupA]
    · by_cases hk : k' = k
      · simp [lookupA, hk]
      · simp only [lookupA, hk, if_false]
        exact ih hm

theorem insertSortedA_keys_perm {α : Type} (k : String) (v : α)
    (l : List (String × α)) :
    ((insertSortedA k v l).map Prod.fst).Perm (k :: l.map Prod.fst) := by
  induction l with
  | nil => exact List.Perm.refl _
  | cons hd t ih =>
    obtain ⟨k', v'⟩ := hd
    by_cases hlt : strLt k k' = true
    · simp only [insertSortedA, hlt, if_true]
      exact List.Perm.refl _
    · simp only [insertSortedA, hlt, if_false, List.map_cons]
      exact (List.Perm.cons k' ih).trans (List.Perm.swap k k' _)

/-- `std::map` insertion of a fresh key keeps the key sequence strictly
sorted. -/
theorem insertSortedA_chain {α : Type} {k : String} {v : α} :
    ∀ {l : List (String × α)},
      List.Chain' (fun a b => strLt a b = true) (l.map Prod.fst) →
      k ∉ l.map Prod.fst →
      List.Chain' (fun a b => strLt a b = true)
        ((insertSortedA k v l).map Prod.fst) := by
  intro l
  induction l with
  | nil =>
    intro _ _
    simp [insertSortedA]
  | cons hd t ih =>
    obtain ⟨k', v'⟩ := hd
    intro hch hfresh
    simp only [List.map_cons, List.mem_cons] at hfresh
    push_neg at hfresh
    by_cases hlt : strLt k k' = true
    · simp only [insertSortedA, hlt, if_true, List.map_cons]
      exact List.Chain'.cons hlt hch
    · have hk' : strLt k' k = true := by
        rcases strLt_connex (Ne.symm hfresh.1) with h1 | h1
        · exact h1
        · exact absurd h1 hlt
      simp only [insertSortedA, hlt, if_false, List.map_cons]
      cases t with
      | nil => simp [insertSortedA, hk']
      | cons hd2 t2 =>
        obtain ⟨k₂, v₂⟩ := hd2
        have hch2 := hch.tail
        have hrel : strLt k' k₂ = true := (List.chain'_cons.mp hch).1
        by_cases hlt2 : strLt k k₂ = true
        · simp only [insertSortedA, hlt2, if_true, List.map_cons]
          exact List.Chain'.cons hk' (List.Chain'.cons hlt2 hch2)
        · have := ih hch2 hfresh.2
          simp only [insertSortedA, hlt2, if_false, List.map_cons] at this ⊢
          exact List.Chain'.cons hrel this

/-- Inserting a key above everything in a sorted map appends at the end. -/
theorem insertSortedA_append {α : Type} {k : String} (v : α) :
    ∀ {l : List (String × α)},
      (∀ k' ∈ l.map Prod.fst, strLt k' k = true) →
      insertSortedA k v l = l ++ [(k, v)] := by
  intro l
  induction l with
  | nil => intro _; rfl
  | cons hd t ih =>
    obtain ⟨k', v'⟩ := hd
    intro hall
    have h1 : strLt k' k = true := hall k' (by simp)
    have h2 : strLt k k' = false := strLt_asymm h1
    simp only [insertSortedA, h2, Bool.false_eq_true, if_false,
      List.cons_append, List.cons.injEq, true_and]
    exact ih (fun k₂ hm => hall k₂ (by simp [hm]))

/-! ## File-layout lemmas -/

theorem chainOk_le {l : List (Nat × Rec)} {s e : Nat} (h : chainOk l s e) :
    s ≤ e := by
  induction l generalizing s with
  | nil => exact h.le
  | cons hd t ih =>
    obtain ⟨p, r⟩ := hd
    obtain ⟨-, h2⟩ := h
    have := ih h2
    omega

theorem chainOk_bounds {l : List (Nat × Rec)} {s e : Nat} (h : chainOk l s e) :
    ∀ pr ∈ l, s ≤ pr.1 ∧ pr.1 + pr.2.size ≤ e := by
  induction l generalizing s with
  | nil => simp
  | cons hd t ih =>
    obtain ⟨p, r⟩ := hd
    obtain ⟨rfl, h2⟩ := h
    intro pr hm
    rcases List.mem_cons.mp hm with rfl | hm
    · exact ⟨Nat.le_refl _, chainOk_le h2⟩
    · have := ih h2 pr hm
      omega

theorem chainOk_append {l₁ l₂ : List (Nat × Rec)} {s m e : Nat}
    (h1 : chainOk l₁ s m) (h2 : chainOk l₂ m e) :
    chainOk (l₁ ++ l₂) s e := by
  induction l₁ generalizing s with
  | nil => cases h1; exact h2
  | cons hd t ih =>
    obtain ⟨p, r⟩ := hd
    obtain ⟨rfl, h1'⟩ := h1
    exact ⟨rfl, ih h1'⟩

theorem chainOk_mkIdx (trec : List (String × MsgInfo))
    (tind : List (String × List IndexEntry)) (p : Nat) :
    chainOk (mkIdx trec tind p) p (mkIdxEnd trec tind p) := by
  induction tind generalizing p with
  | nil => rfl
  | cons hd t ih =>
    obtain ⟨tp, es⟩ := hd
    exact ⟨rfl, ih _⟩

theorem recordAt_nil (p : Nat) : recordAt [] p = none := rfl

theorem recordAt_append_right {l₁ l₂ : List (Nat × Rec)} {p : Nat}
    (h : ∀ pr ∈ l₂, pr.1 ≠ p) :
    recordAt (l₁ ++ l₂) p = recordAt l₁ p := by
  unfold recordAt
  rw [List.filter_append]
  have h2 : l₂.filter (fun pr => pr.1 = p) = [] := by
    rw [List.filter_eq_nil_iff]
    intro pr hm
    simpa using h pr hm
  rw [h2, List.append_nil]

theorem recordAt_append_left {l₁ l₂ : List (Nat × Rec)} {p : Nat}
    (h : ∀ pr ∈ l₁, pr.1 ≠ p) :
    recordAt (l₁ ++ l₂) p = recordAt l₂ p := by
  unfold recordAt
  rw [List.filter_append]
  have h1 : l₁.filter (fun pr => pr.1 = p) = [] := by
    rw [List.filter_eq_nil_iff]
    intro pr hm
    simpa using h pr hm
  rw [h1, List.nil_append]

theorem recordAt_snoc_self (l : List (Nat × Rec)) (p : Nat) (r : Rec) :
    recordAt (l ++ [(p, r)]) p = some r := by
  unfold recordAt
  rw [List.filter_append, List.getLast?_append_of_ne_nil]
  · simp [List.filter]
  · simp [List.filter]

theorem recordAt_cons_self (l : List (Nat × Rec)) (p : Nat) (r : Rec)
    (h : ∀ pr ∈ l, pr.1 ≠ p) :
    recordAt ((p, r) :: l) p = some r := by
  have := @recordAt_append_right [(p, r)] l p h
  simpa [recordAt, List.filter] using this

theorem recordAt_eq_none {l : List (Nat × Rec)} {p : Nat}
    (h : ∀ pr ∈ l, pr.1 ≠ p) : recordAt l p = none := by
  unfold recordAt
  have h1 : l.filter (fun pr => pr.1 = p) = [] := by
    rw [List.filter_eq_nil_iff]
    intro pr hm
    simpa using h pr hm
  rw [h1]
  rfl

/-- Inside a gapless chain the positions are unique, so membership
determines what a read at that position sees. -/
theorem chainOk_recordAt : ∀ {l : List (Nat × Rec)} {s e p : Nat} {r : Rec},
    chainOk l s e → (p, r) ∈ l → recordAt l p = some r := by
  intro l
  induction l with
  | nil => intro s e p r _ hm; simp at hm
  | cons hd t ih =>
    obtain ⟨p₀, r₀⟩ := hd
    intro s e p r hch hm
    obtain ⟨rfl, hch2⟩ := hch
    rcases List.mem_cons.mp hm with heq | hm
    · obtain ⟨rfl, rfl⟩ := Prod.mk.injEq .. ▸ heq
      apply recordAt_cons_self
      intro pr hpr
      have := chainOk_bounds hch2 pr hpr
      have hsz := Rec.size_pos r
      omega
    · have hb := chainOk_bounds hch2 (p, r) hm
      have hsz := Rec.size_pos r₀
      have hne : p₀ ≠ p := by omega
      have hstep : recordAt ((p₀, r₀) :: t) p = recordAt t p := by
        have := @recordAt_append_left [(p₀, r₀)] t p
          (by intro pr hpr; rcases List.mem_singleton.mp hpr with rfl; exact hne)
        simpa using this
      rw [hstep]
      exact ih hch2 hm

/-! ## Per-message correspondence is stable under appends -/

theorem EntrySpec_append {R new : List (Nat × Rec)} {L L' : Nat}
    {tp : String} {info : MsgInfo} {e : IndexEntry}
    {x : String × RTime × WMsg} (h : EntrySpec R L tp info e x)
    (hnew : ∀ pr ∈ new, L ≤ pr.1) (hL : L ≤ L') :
    EntrySpec (R ++ new) L' tp info e x := by
  obtain ⟨ht, hlb, hcase⟩ := h
  refine ⟨ht, hlb, ?_⟩
  rcases hcase with ⟨h1, h2⟩ | ⟨h1, h2, h3⟩
  · left
    have hd := Rec.size_pos (dataRec tp info x.2.1 x.2.2)
    constructor
    · rw [recordAt_append_right]
      · exact h1
      · intro pr hpr
        have := hnew pr hpr
        omega
    · omega
  · right
    have hd := Rec.size_pos (dataRec tp info x.2.1 x.2.2)
    have hdf := Rec.size_pos (defRec tp info)
    refine ⟨?_, ?_, by omega⟩
    · rw [recordAt_append_right]
      · exact h1
      · intro pr hpr
        have := hnew pr hpr
        omega
    · rw [recordAt_append_right]
      · exact h2
      · intro pr hpr
        have := hnew pr hpr
        omega

/-! ## Filtering the call sequence by topic -/

theorem msgsOn_append_hit {tp : String} {x : String × RTime × WMsg}
    (msgs : List (String × RTime × WMsg)) (h : x.1 = tp) :
    msgsOn tp (msgs ++ [x]) = msgsOn tp msgs ++ [x] := by
  unfold msgsOn
  rw [List.filter_append]
  simp [h]

theorem msgsOn_append_miss {tp : String} {x : String × RTime × WMsg}
    (msgs : List (String × RTime × WMsg)) (h : x.1 ≠ tp) :
    msgsOn tp (msgs ++ [x]) = msgsOn tp msgs := by
  unfold msgsOn
  rw [List.filter_append]
  simp [h]

theorem wfile_pos_lb {b : WBag} (W : WFile b) : 88 ≤ b.record_pos := by
  obtain ⟨rest, hrest⟩ := W.first
  have hch := W.chain
  rw [hrest] at hch
  obtain ⟨-, hch2⟩ := hch
  have := chainOk_le hch2
  have hsz : (fileHeaderRec 0).size = 72 := by decide
  omega

/-! ## Opcode computations -/

theorem opOf_fileHeaderRec (i : Nat) :
    opOf (fileHeaderRec i) = some OP_FILE_HEADER := rfl

theorem opOf_defRec (tp : String) (info : MsgInfo) :
    opOf (defRec tp info) = some OP_MSG_DEF := rfl

theorem opOf_dataRec (tp : String) (info : MsgInfo) (t : RTime) (m : WMsg) :
    opOf (dataRec tp info t m) = some OP_MSG_DATA := rfl

theorem opOf_indexRec (tp dt : String) (es : List IndexEntry) :
    opOf (indexRec tp dt es) = some OP_INDEX_DATA := rfl

/-! ## Shape of one `Bag::write` step -/

/-- A first-sight `write`: topic admitted, definition record then data
record appended at the current write position. -/
theorem bagWrite_eq_fresh {b : WBag} {topic : String} (t : RTime) (m : WMsg)
    (h : b.writing_enabled = true)
    (hl : lookupA b.topics_recorded topic = none) :
    bagWrite b topic t m =
      { b with
        topics_recorded := setA topic (snapInfo topic m) b.topics_recorded,
        topic_indexes := updateA topic (· ++ [⟨t, b.record_pos⟩])
          (getOrCreateA topic [] (setA topic [] b.topic_indexes)),
        records := (b.records ++ [(b.record_pos, defRec topic (snapInfo topic m))])
          ++ [(b.record_pos + (defRec topic (snapInfo topic m)).size,
               dataRec topic (snapInfo topic m) t m)],
        record_pos := b.record_pos + (defRec topic (snapInfo topic m)).size
          + (dataRec topic (snapInfo topic m) t m).size } := by
  simp only [bagWrite, h, if_true, hl, Option.isNone_none, appendRec]

/-- A later `write` on a known topic: data record only. -/
theorem bagWrite_eq_known {b : WBag} {topic : String} (t : RTime) (m : WMsg)
    {info : MsgInfo} (h : b.writing_enabled = true)
    (hl : lookupA b.topics_recorded topic = some info) :
    bagWrite b topic t m =
      { b with
        topic_indexes := updateA topic (· ++ [⟨t, b.record_pos⟩])
          (getOrCreateA topic [] b.topic_indexes),
        records := b.records ++ [(b.record_pos, dataRec topic info t m)],
        record_pos := b.record_pos + (dataRec topic info t m).size } := by
  simp only [bagWrite, h, if_true, hl, Option.isNone_some, Bool.false_eq_true,
    if_false, appendRec]

/-! ## The writer invariant -/

theorem chainOk_single (s : Nat) (r : Rec) :
    chainOk [(s, r)] s (s + r.size) := by
  simp [chainOk]

theorem chainOk_snoc {l : List (Nat × Rec)} {s e : Nat} (h : chainOk l s e)
    (r : Rec) : chainOk (l ++ [(e, r)]) s (e + r.size) :=
  chainOk_append h (chainOk_single e r)

/-- Append fresh records (and replace the in-memory maps) without
breaking the writer invariant. -/
theorem wfile_mk {b : WBag} (W : WFile b) {new : List (Nat × Rec)} {e : Nat}
    (hch : chainOk new b.record_pos e)
    (hop : ∀ pr ∈ new, opOf pr.2 ≠ some OP_INDEX_DATA)
    (trec' : List (String × MsgInfo))
    (tind' : List (String × List IndexEntry)) :
    WFile { b with records := b.records ++ new, record_pos := e,
                   topics_recorded := trec', topic_indexes := tind' } := by
  obtain ⟨rest, hrest⟩ := W.first
  refine ⟨W.vline, W.fhpos, W.enabled, ⟨rest ++ new, ?_⟩, ?_, ?_⟩
  · show b.records ++ new = _
    rw [hrest, List.cons_append]
  · exact chainOk_append W.chain hch
  · intro pr hm
    rcases List.mem_append.mp hm with hm | hm
    · exact W.noIdx pr hm
    · exact hop pr hm

theorem wfile_open : WFile bagOpenWrite := by
  have hb : bagOpenWrite =
      ⟨"#ROSRECORD V1.2\n", [(16, fileHeaderRec 0)], 88, 16, 0, [], [], true⟩ := by
    decide
  rw [hb]
  refine ⟨rfl, rfl, rfl, ⟨[], rfl⟩, ?_, ?_⟩
  · show chainOk [(16, fileHeaderRec 0)] 16 88
    simp only [chainOk]
    decide
  · intro pr hm
    rcases List.mem_singleton.mp hm with rfl
    decide

theorem wfile_bagWrite {b : WBag} (W : WFile b) (topic : String) (t : RTime)
    (m : WMsg) : WFile (bagWrite b topic t m) := by
  rcases hl : lookupA b.topics_recorded topic with - | info
  · rw [bagWrite_eq_fresh t m W.enabled hl]
    have hsh :
        (b.records ++ [(b.record_pos, defRec topic (snapInfo topic m))])
          ++ [(b.record_pos + (defRec topic (snapInfo topic m)).size,
               dataRec topic (snapInfo topic m) t m)]
        = b.records ++ [(b.record_pos, defRec topic (snapInfo topic m)),
            (b.record_pos + (defRec topic (snapInfo topic m)).size,
             dataRec topic (snapInfo topic m) t m)] := by
      simp
    rw [hsh]
    refine wfile_mk W ?_ ?_ _ _
    · exact chainOk_snoc (chainOk_single _ _) _
    · intro pr hm
      rcases List.mem_cons.mp hm with rfl | hm
      · simp [opOf_defRec, OP_MSG_DEF, OP_INDEX_DATA]
      · rcases List.mem_singleton.mp hm with rfl
        simp [opOf_dataRec, OP_MSG_DATA, OP_INDEX_DATA]
  · rw [bagWrite_eq_known t m W.enabled hl]
    refine wfile_mk W ?_ ?_ _ _
    · exact chainOk_single _ _
    · intro pr hm
      rcases List.mem_singleton.mp hm with rfl
      simp [opOf_dataRec, OP_MSG_DATA, OP_INDEX_DATA]

theorem wfile_writeAll {b : WBag} (W : WFile b)
    (msgs : List (String × RTime × WMsg)) : WFile (writeAll msgs b) := by
  induction msgs generalizing b with
  | nil => exact W
  | cons x rest ih => exact ih (wfile_bagWrite W x.1 x.2.1 x.2.2)

/-- After an enabled `write`, the written topic is present in the index
map. -/
theorem bagWrite_tind_lookup_isSome {b : WBag} (h : b.writing_enabled = true)
    (topic : String) (t : RTime) (m : WMsg) :
    (lookupA (bagWrite b topic t m).topic_indexes topic).isSome := by
  rcases hl : lookupA b.topics_recorded topic with - | info
  · rw [bagWrite_eq_fresh t m h hl]
    simp only [lookupA_updateA, lookupA_getOrCreateA_self]
    simp
  · rw [bagWrite_eq_known t m h hl]
    simp only [lookupA_updateA, lookupA_getOrCreateA_self]
    simp

theorem writeAll_tind_ne_nil {b : WBag} (W : WFile b)
    {msgs : List (String × RTime × WMsg)} (hne : msgs ≠ []) :
    (writeAll msgs b).topic_indexes ≠ [] := by
  induction msgs generalizing b with
  | nil => exact absurd rfl hne
  | cons x rest ih =>
    by_cases hr : rest = []
    · subst hr
      show (bagWrite b x.1 x.2.1 x.2.2).topic_indexes ≠ []
      intro hnil
      have := bagWrite_tind_lookup_isSome W.enabled x.1 x.2.1 x.2.2
      rw [hnil] at this
      simp [lookupA] at this
    · exact ih (wfile_bagWrite W x.1 x.2.1 x.2.2) hr

/-! ## Shape of `Bag::writeIndex` and `Bag::close` -/

theorem writeIndex_foldl (tind : List (String × List IndexEntry)) :
    ∀ b : WBag,
      tind.foldl
        (fun acc ti =>
          appendRec acc (indexRec ti.1
            (match lookupA acc.topics_recorded ti.1 with
             | some i => i.datatype
             | none => "") ti.2)) b
      = { b with
          records := b.records ++ mkIdx b.topics_recorded tind b.record_pos,
          record_pos := mkIdxEnd b.topics_recorded tind b.record_pos } := by
  induction tind with
  | nil => intro b; simp [mkIdx, mkIdxEnd]
  | cons hd t ih =>
    obtain ⟨tp, es⟩ := hd
    intro b
    rw [List.foldl_cons, ih]
    simp [appendRec, mkIdx, mkIdxEnd, List.append_assoc]

theorem bagClose_eq (b : WBag) :
    bagClose b =
      { b with
        records := (b.records
            ++ mkIdx b.topics_recorded b.topic_indexes b.record_pos)
          ++ [(b.file_header_pos, fileHeaderRec b.record_pos)],
        record_pos := b.file_header_pos + (fileHeaderRec b.record_pos).size,
        index_data_pos := b.record_pos,
        topics_recorded := [],
        topic_indexes := [] } := by
  simp only [bagClose, writeIndexM]
  rw [writeIndex_foldl]
  simp [writeFileHeaderM, appendRec]

/-! ## The data invariant of the writer -/

theorem insertSortedA_keys_eq {α β : Type} (k : String) (v : α) (w : β) :
    ∀ {l₁ : List (String × α)} {l₂ : List (String × β)},
      l₁.map Prod.fst = l₂.map Prod.fst →
      (insertSortedA k v l₁).map Prod.fst
        = (insertSortedA k w l₂).map Prod.fst := by
  intro l₁
  induction l₁ with
  | nil =>
    intro l₂ h
    cases l₂ with
    | nil => rfl
    | cons hd t => simp at h
  | cons hd t ih =>
    obtain ⟨k₁, v₁⟩ := hd
    intro l₂ h
    cases l₂ with
    | nil => simp at h
    | cons hd₂ t₂ =>
      obtain ⟨k₂, v₂⟩ := hd₂
      simp only [List.map_cons, List.cons.injEq] at h
      obtain ⟨rfl, ht⟩ := h
      by_cases hlt : strLt k k₁ = true
      · simp only [insertSortedA, hlt, if_true, List.map_cons, ht]
      · simp only [insertSortedA, hlt, Bool.false_eq_true, if_false,
          List.map_cons, List.cons.injEq, true_and]
        exact ih ht

theorem wdata_init : WData [] bagOpenWrite := by
  have htind : bagOpenWrite.topic_indexes = [] := by decide
  have htrec : bagOpenWrite.topics_recorded = [] := by decide
  refine ⟨wfile_open, ?_, ?_, ?_, ?_, ?_, ?_⟩
  · rw [htind]; simp
  · rw [htind]; simp
  · rw [htind, htrec]
    rfl
  · intro tp _
    rfl
  · intro tp info hlk
    rw [htrec] at hlk
    exact Option.noConfusion hlk
  · intro tp entries hlk
    rw [htind] at hlk
    exact Option.noConfusion hlk

theorem wdata_bagWrite_fresh {msgs : List (String × RTime × WMsg)}
    {b : WBag} (D : WData msgs b) {tp : String} (t : RTime) (m : WMsg)
    (hl : lookupA b.topics_recorded tp = none) :
    WData (msgs ++ [(tp, t, m)]) (bagWrite b tp t m) := by
  have hWF := wfile_bagWrite D.wf tp t m
  have hLlb := wfile_pos_lb D.wf
  have heq := bagWrite_eq_fresh t m D.wf.enabled hl
  have hfreshK : tp ∉ b.topic_indexes.map Prod.fst := by
    rw [← D.trec_keys]
    exact lookupA_none_not_mem hl
  have htindN : lookupA b.topic_indexes tp = none :=
    lookupA_eq_none_of_not_mem hfreshK
  have hsetTind : setA tp ([] : List IndexEntry) b.topic_indexes
      = insertSortedA tp [] b.topic_indexes := by
    unfold setA
    rw [htindN]
    rfl
  have hsetTrec : setA tp (snapInfo tp m) b.topics_recorded
      = insertSortedA tp (snapInfo tp m) b.topics_recorded := by
    unfold setA
    rw [hl]
    rfl
  have hlookI : lookupA
      (insertSortedA tp ([] : List IndexEntry) b.topic_indexes) tp
      = some [] := lookupA_insertSortedA_self _ _ htindN
  have htind' : (bagWrite b tp t m).topic_indexes
      = updateA tp (· ++ [⟨t, b.record_pos⟩])
          (insertSortedA tp [] b.topic_indexes) := by
    rw [heq]
    show updateA tp (· ++ [⟨t, b.record_pos⟩])
        (getOrCreateA tp [] (setA tp [] b.topic_indexes)) = _
    rw [hsetTind]
    unfold getOrCreateA
    rw [hlookI]
    rfl
  have htrec' : (bagWrite b tp t m).topics_recorded
      = insertSortedA tp (snapInfo tp m) b.topics_recorded := by
    rw [heq]
    show setA tp (snapInfo tp m) b.topics_recorded = _
    exact hsetTrec
  have hrecs' : (bagWrite b tp t m).records
      = b.records ++ [(b.record_pos, defRec tp (snapInfo tp m)),
          (b.record_pos + (defRec tp (snapInfo tp m)).size,
           dataRec tp (snapInfo tp m) t m)] := by
    rw [heq]
    show (b.records ++ _) ++ _ = _
    rw [List.append_assoc]
    rfl
  have hpos' : (bagWrite b tp t m).record_pos
      = b.record_pos + (defRec tp (snapInfo tp m)).size
        + (dataRec tp (snapInfo tp m) t m).size := by
    rw [heq]
  have hdrsz := Rec.size_pos (defRec tp (snapInfo tp m))
  have hdasz := Rec.size_pos (dataRec tp (snapInfo tp m) t m)
  have hlookNew : lookupA (bagWrite b tp t m).topic_indexes tp
      = some [⟨t, b.record_pos⟩] := by
    rw [htind', lookupA_updateA, hlookI]
    rfl
  have hnewbound : ∀ pr ∈ [(b.record_pos, defRec tp (snapInfo tp m)),
      (b.record_pos + (defRec tp (snapInfo tp m)).size,
       dataRec tp (snapInfo tp m) t m)], b.record_pos ≤ pr.1 := by
    intro pr hpr
    rcases List.mem_cons.mp hpr with rfl | hpr
    · exact Nat.le_refl _
    · rcases List.mem_singleton.mp hpr with rfl
      omega
  refine ⟨hWF, ?_, ?_, ?_, ?_, ?_, ?_⟩
  · rw [htind', updateA_keys]
    exact insertSortedA_chain D.keys_chain hfreshK
  · rw [htind', updateA_keys]
    exact (insertSortedA_keys_perm tp [] b.topic_indexes).nodup_iff.mpr
      (List.nodup_cons.mpr ⟨hfreshK, D.keys_nodup⟩)
  · rw [htind', htrec', updateA_keys]
    exact insertSortedA_keys_eq tp (snapInfo tp m) [] D.trec_keys
  · intro tp' hlk
    by_cases htp' : tp' = tp
    · subst tp'
      rw [hlookNew] at hlk
      exact Option.noConfusion hlk
    · have hne : tp ≠ tp' := fun h => htp' h.symm
      rw [htind', lookupA_updateA_ne hne, lookupA_insertSortedA_ne hne]
        at hlk
      rw [msgsOn_append_miss _ hne]
      exact D.hnone tp' hlk
  · intro tp' info' hlk
    rw [htrec'] at hlk
    by_cases htp' : tp' = tp
    · subst tp'
      rw [lookupA_insertSortedA_self _ _ hl, Option.some.injEq] at hlk
      refine ⟨(tp, t, m), [], ?_, hlk.symm⟩
      rw [@msgsOn_append_hit tp (tp, t, m) msgs rfl, D.hnone tp htindN]
      rfl
    · have hne : tp ≠ tp' := fun h => htp' h.symm
      rw [lookupA_insertSortedA_ne hne] at hlk
      obtain ⟨y, ys, hys, hinfo⟩ := D.hinfo tp' info' hlk
      rw [msgsOn_append_miss _ hne]
      exact ⟨y, ys, hys, hinfo⟩
  · intro tp' entries' hlk
    by_cases htp' : tp' = tp
    · subst tp'
      rw [hlookNew, Option.some.injEq] at hlk
      subst hlk
      refine ⟨snapInfo tp m, ?_, ?_, ?_⟩
      · rw [htrec']
        exact lookupA_insertSortedA_self _ _ hl
      · rw [@msgsOn_append_hit tp (tp, t, m) msgs rfl, D.hnone tp htindN, List.nil_append,
          hrecs', hpos']
        refine List.Forall₂.cons ?_ List.Forall₂.nil
        refine ⟨rfl, by show 16 < b.record_pos; omega,
          Or.inr ⟨?_, ?_, Nat.le_refl _⟩⟩
        · have hsplit : b.records ++ [(b.record_pos, defRec tp (snapInfo tp m)),
              (b.record_pos + (defRec tp (snapInfo tp m)).size,
               dataRec tp (snapInfo tp m) t m)]
              = (b.records ++ [(b.record_pos, defRec tp (snapInfo tp m))])
                ++ [(b.record_pos + (defRec tp (snapInfo tp m)).size,
                     dataRec tp (snapInfo tp m) t m)] := by
            simp
          rw [hsplit, recordAt_append_right]
          · exact recordAt_snoc_self _ _ _
          · intro pr hpr
            rcases List.mem_singleton.mp hpr with rfl
            show ¬(b.record_pos + (defRec tp (snapInfo tp m)).size
              = b.record_pos)
            omega
        · have hsplit : b.records ++ [(b.record_pos, defRec tp (snapInfo tp m)),
              (b.record_pos + (defRec tp (snapInfo tp m)).size,
               dataRec tp (snapInfo tp m) t m)]
              = (b.records ++ [(b.record_pos, defRec tp (snapInfo tp m))])
                ++ [(b.record_pos + (defRec tp (snapInfo tp m)).size,
                     dataRec tp (snapInfo tp m) t m)] := by
            simp
          rw [hsplit]
          exact recordAt_snoc_self _ _ _
      · intro e es hent
        simp only [List.cons.injEq] at hent
        obtain ⟨rfl, -⟩ := hent
        rw [hrecs']
        have hsplit : b.records ++ [(b.record_pos, defRec tp (snapInfo tp m)),
            (b.record_pos + (defRec tp (snapInfo tp m)).size,
             dataRec tp (snapInfo tp m) t m)]
            = (b.records ++ [(b.record_pos, defRec tp (snapInfo tp m))])
              ++ [(b.record_pos + (defRec tp (snapInfo tp m)).size,
                   dataRec tp (snapInfo tp m) t m)] := by
          simp
        rw [hsplit, recordAt_append_right]
        · exact recordAt_snoc_self _ _ _
        · intro pr hpr
          rcases List.mem_singleton.mp hpr with rfl
          show ¬(b.record_pos + (defRec tp (snapInfo tp m)).size
            = b.record_pos)
          omega
    · have hne : tp ≠ tp' := fun h => htp' h.symm
      rw [htind', lookupA_updateA_ne hne, lookupA_insertSortedA_ne hne]
        at hlk
      obtain ⟨info', hlkTrec, hforall, hhead⟩ := D.hind tp' entries' hlk
      refine ⟨info', ?_, ?_, ?_⟩
      · rw [htrec', lookupA_insertSortedA_ne hne]
        exact hlkTrec
      · rw [msgsOn_append_miss _ hne, hrecs', hpos']
        refine hforall.imp ?_
        intro e y hes
        exact EntrySpec_append hes hnewbound (by omega)
      · intro e es hent
        have hold := hhead e es hent
        rw [hent] at hforall
        rcases (List.forall₂_cons_left_iff.mp hforall) with
          ⟨y, ys, hspec, -, -⟩
        have hebound : e.pos < b.record_pos := by
          rcases hspec.2.2 with ⟨-, hb⟩ | ⟨-, -, hb⟩
          · have := Rec.size_pos (dataRec tp' info' y.2.1 y.2.2)
            omega
          · have := Rec.size_pos (dataRec tp' info' y.2.1 y.2.2)
            have := Rec.size_pos (defRec tp' info')
            omega
        rw [hrecs', recordAt_append_right]
        · exact hold
        · intro pr hpr
          have := hnewbound pr hpr
          omega

theorem wdata_bagWrite_known {msgs : List (String × RTime × WMsg)}
    {b : WBag} (D : WData msgs b) {tp : String} (t : RTime) (m : WMsg)
    {info : MsgInfo} (hl : lookupA b.topics_recorded tp = some info) :
    WData (msgs ++ [(tp, t, m)]) (bagWrite b tp t m) := by
  have hWF := wfile_bagWrite D.wf tp t m
  have hLlb := wfile_pos_lb D.wf
  have heq := bagWrite_eq_known t m D.wf.enabled hl
  have hsomeRec : (lookupA b.topics_recorded tp).isSome := by
    rw [hl]; rfl
  have hmemK : tp ∈ b.topic_indexes.map Prod.fst := by
    rw [← D.trec_keys]
    exact lookupA_isSome_mem hsomeRec
  have hsomeInd : (lookupA b.topic_indexes tp).isSome := by
    rcases List.mem_map.mp hmemK with ⟨⟨k', v⟩, hm, hk⟩
    cases hk
    exact lookupA_isSome_of_mem hm
  obtain ⟨entries₀, hlk₀⟩ := Option.isSome_iff_exists.mp hsomeInd
  have hgoc : getOrCreateA tp ([] : List IndexEntry) b.topic_indexes
      = b.topic_indexes := by
    unfold getOrCreateA
    rw [if_pos hsomeInd]
  have htind' : (bagWrite b tp t m).topic_indexes
      = updateA tp (· ++ [⟨t, b.record_pos⟩]) b.topic_indexes := by
    rw [heq]
    show updateA tp (· ++ [⟨t, b.record_pos⟩])
        (getOrCreateA tp [] b.topic_indexes) = _
    rw [hgoc]
  have htrec' : (bagWrite b tp t m).topics_recorded = b.topics_recorded := by
    rw [heq]
  have hrecs' : (bagWrite b tp t m).records
      = b.records ++ [(b.record_pos, dataRec tp info t m)] := by
    rw [heq]
  have hpos' : (bagWrite b tp t m).record_pos
      = b.record_pos + (dataRec tp info t m).size := by
    rw [heq]
  have hdasz := Rec.size_pos (dataRec tp info t m)
  obtain ⟨info₀, hlkTrec₀, hforall₀, hhead₀⟩ := D.hind tp entries₀ hlk₀
  have hinfoEq : info₀ = info := by
    rw [hl] at hlkTrec₀
    exact (Option.some.inj hlkTrec₀).symm
  subst info₀
  have hnewbound : ∀ pr ∈ [(b.record_pos, dataRec tp info t m)],
      b.record_pos ≤ pr.1 := by
    intro pr hpr
    rcases List.mem_singleton.mp hpr with rfl
    exact Nat.le_refl _
  refine ⟨hWF, ?_, ?_, ?_, ?_, ?_, ?_⟩
  · rw [htind', updateA_keys]
    exact D.keys_chain
  · rw [htind', updateA_keys]
    exact D.keys_nodup
  · rw [htrec', htind', updateA_keys]
    exact D.trec_keys
  · intro tp' hlkN
    by_cases htp' : tp' = tp
    · subst tp'
      rw [htind', lookupA_updateA, hlk₀] at hlkN
      exact Option.noConfusion hlkN
    · have hne : tp ≠ tp' := fun h => htp' h.symm
      rw [htind', lookupA_updateA_ne hne] at hlkN
      rw [msgsOn_append_miss _ hne]
      exact D.hnone tp' hlkN
  · intro tp' info' hlkR
    rw [htrec'] at hlkR
    by_cases htp' : tp' = tp
    · subst tp'
      obtain ⟨x, xs, hxs, hxinfo⟩ := D.hinfo tp info' hlkR
      refine ⟨x, xs ++ [(tp, t, m)], ?_, hxinfo⟩
      rw [@msgsOn_append_hit tp (tp, t, m) msgs rfl, hxs]
      rfl
    · have hne : tp ≠ tp' := fun h => htp' h.symm
      rw [msgsOn_append_miss _ hne]
      exact D.hinfo tp' info' hlkR
  · intro tp' entries' hlkI
    by_cases htp' : tp' = tp
    · subst tp'
      rw [htind', lookupA_updateA, hlk₀] at hlkI
      have hlkI' : entries' = entries₀ ++ [⟨t, b.record_pos⟩] := by
        have h2 : some (entries₀ ++ [⟨t, b.record_pos⟩]) = some entries' :=
          hlkI
        exact (Option.some.inj h2).symm
      subst entries'
      refine ⟨info, ?_, ?_, ?_⟩
      · rw [htrec']
        exact hl
      · rw [@msgsOn_append_hit tp (tp, t, m) msgs rfl, hrecs', hpos']
        refine List.rel_append ?_ ?_
        · refine hforall₀.imp ?_
          intro e y hes
          exact EntrySpec_append hes hnewbound (by omega)
        · refine List.Forall₂.cons ?_ List.Forall₂.nil
          exact ⟨rfl, by show 16 < b.record_pos; omega,
            Or.inl ⟨recordAt_snoc_self _ _ _, Nat.le_refl _⟩⟩
      · intro e es hent
        obtain ⟨x, xs, hxs, -⟩ := D.hinfo tp info hl
        have hforall₁ := hforall₀
        rw [hxs] at hforall₁
        rcases List.forall₂_cons_right_iff.mp hforall₁ with
          ⟨e₀, es₀, hspec₀, -, hEq₀⟩
        rw [hEq₀] at hent
        simp only [List.cons_append, List.cons.injEq] at hent
        obtain ⟨rfl, -⟩ := hent
        have hold := hhead₀ e₀ es₀ hEq₀
        have hebound : e₀.pos < b.record_pos := by
          rcases hspec₀.2.2 with ⟨-, hb⟩ | ⟨-, -, hb⟩
          · have := Rec.size_pos (dataRec tp info x.2.1 x.2.2)
            omega
          · have := Rec.size_pos (dataRec tp info x.2.1 x.2.2)
            have := Rec.size_pos (defRec tp info)
            omega
        rw [hrecs', recordAt_append_right]
        · exact hold
        · intro pr hpr
          have := hnewbound pr hpr
          omega
    · have hne : tp ≠ tp' := fun h => htp' h.symm
      rw [htind', lookupA_updateA_ne hne] at hlkI
      obtain ⟨info', hlkTrec, hforall, hhead⟩ := D.hind tp' entries' hlkI
      refine ⟨info', ?_, ?_, ?_⟩
      · rw [htrec']
        exact hlkTrec
      · rw [msgsOn_append_miss _ hne, hrecs', hpos']
        refine hforall.imp ?_
        intro e y hes
        exact EntrySpec_append hes hnewbound (by omega)
      · intro e es hent
        have hold := hhead e es hent
        rw [hent] at hforall
        rcases List.forall₂_cons_left_iff.mp hforall with
          ⟨y, ys, hspec, -, -⟩
        have hebound : e.pos < b.record_pos := by
          rcases hspec.2.2 with ⟨-, hb⟩ | ⟨-, -, hb⟩
          · have := Rec.size_pos (dataRec tp' info' y.2.1 y.2.2)
            omega
          · have := Rec.size_pos (dataRec tp' info' y.2.1 y.2.2)
            have := Rec.size_pos (defRec tp' info')
            omega
        rw [hrecs', recordAt_append_right]
        · exact hold
        · intro pr hpr
          have := hnewbound pr hpr
          omega

/-- One `Bag::write` call extends the correspondence, whichever branch
`topics_recorded_.find` takes. -/
theorem wdata_bagWrite {msgs : List (String × RTime × WMsg)}
    {b : WBag} (D : WData msgs b) (tp : String) (t : RTime) (m : WMsg) :
    WData (msgs ++ [(tp, t, m)]) (bagWrite b tp t m) := by
  rcases hl : lookupA b.topics_recorded tp with - | info
  · exact wdata_bagWrite_fresh D t m hl
  · exact wdata_bagWrite_known D t m hl

/-- Folding `Bag::write` over a whole call list keeps the correspondence. -/
theorem wdata_writeAll {msgs₂ : List (String × RTime × WMsg)}
    {msgs₁ : List (String × RTime × WMsg)} {b : WBag}
    (D : WData msgs₁ b) :
    WData (msgs₁ ++ msgs₂) (writeAll msgs₂ b) := by
  induction msgs₂ generalizing msgs₁ b with
  | nil =>
    rw [List.append_nil]
    exact D
  | cons x rest ih =>
    have hstep := wdata_bagWrite D x.1 x.2.1 x.2.2
    have := ih hstep
    rw [List.append_assoc] at this
    show WData (msgs₁ ++ (x :: rest)) (writeAll rest (bagWrite b x.1 x.2.1 x.2.2))
    have hx : (x.1, x.2.1, x.2.2) = x := rfl
    rw [hx] at this
    exact this

/-! ## Reading back the rewritten file header -/

theorem readFileHeaderM_eq {f : BagFile} {i : Nat}
    (hrec : recordAt f.records f.versionLine.length = some (fileHeaderRec i))
    (hb : i < 2 ^ 64) : readFileHeaderM f = some i := by
  unfold readFileHeaderM
  rw [hrec]
  have h1 : checkFieldM (fileHeaderRec i) "op" 1 1 = some [OP_FILE_HEADER] := by
    simp +decide [checkFieldM, findField, fileHeaderRec, lookupA]
  have h2 : checkFieldM (fileHeaderRec i) "index_pos" 8 8 = some (u64le i) := by
    simp +decide [checkFieldM, findField, fileHeaderRec, lookupA, u64le_length]
  simp [h1, h2, decodeLE_u64le, Nat.mod_eq_of_lt hb]
  omega

/-! ## Binary-search slices -/

theorem take_length_takeWhile {α : Type} (l : List α) (p : α → Bool) :
    l.take (l.takeWhile p).length = l.takeWhile p := by
  induction l with
  | nil => rfl
  | cons x t ih =>
    by_cases h : p x = true
    · simp [List.takeWhile_cons, h, ih]
    · simp [List.takeWhile_cons, h]

theorem drop_length_takeWhile {α : Type} (l : List α) (p : α → Bool) :
    l.drop (l.takeWhile p).length = l.dropWhile p := by
  induction l with
  | nil => rfl
  | cons x t ih =>
    by_cases h : p x = true
    · simp [List.takeWhile_cons, List.dropWhile_cons, h, ih]
    · simp [List.takeWhile_cons, List.dropWhile_cons, h]

/-- Everything the slice keeps sits at or below the query's end time
(`upper_bound` keeps equal timestamps). -/
theorem sliceFor_upper {entries : List IndexEntry} {t0 t1 : RTime}
    {e : IndexEntry} (hm : e ∈ sliceFor entries t0 t1) :
    e.time.leb t1 = true := by
  unfold sliceFor upperB at hm
  have h1 : e ∈ entries.takeWhile (fun x => !t1.ltb x.time) := by
    rw [take_length_takeWhile] at hm
    exact List.mem_of_mem_drop hm
  have h2 := List.mem_takeWhile_imp h1
  rw [RTime.leb_iff_not_ltb]
  simpa using h2

theorem chain_time_le {x : IndexEntry} {l : List IndexEntry}
    (h : List.Chain' (fun a b => a.time.leb b.time = true) (x :: l)) :
    ∀ y ∈ l, x.time.leb y.time = true := by
  induction l generalizing x with
  | nil => simp
  | cons y t ih =>
    rw [List.chain'_cons] at h
    intro z hz
    rcases List.mem_cons.mp hz with rfl | hz
    · exact h.1
    · exact RTime.leb_trans h.1 (ih h.2 z hz)

theorem dropWhile_time_lower {t0 : RTime} :
    ∀ {l : List IndexEntry},
      List.Chain' (fun a b => a.time.leb b.time = true) l →
      ∀ e ∈ l.dropWhile (fun x => x.time.ltb t0), t0.leb e.time = true := by
  intro l
  induction l with
  | nil => simp
  | cons x t ih =>
    intro hch e hm
    rw [List.dropWhile_cons] at hm
    by_cases hp : x.time.ltb t0 = true
    · simp only [hp, if_true] at hm
      exact ih hch.tail e hm
    · simp only [hp, if_false, Bool.false_eq_true] at hm
      have hx : t0.leb x.time = true := by
        rw [RTime.leb_iff_not_ltb]
        simp [hp]
      rcases List.mem_cons.mp hm with rfl | hm
      · exact hx
      · exact RTime.leb_trans hx (chain_time_le hch e hm)

/-- On a time-sorted index, everything the slice keeps sits at or above
the query's begin time. -/
theorem sliceFor_lower {entries : List IndexEntry} {t0 t1 : RTime}
    {e : IndexEntry}
    (hch : List.Chain' (fun a b => a.time.leb b.time = true) entries)
    (hm : e ∈ sliceFor entries t0 t1) : t0.leb e.time = true := by
  unfold sliceFor lowerB at hm
  rw [List.drop_take] at hm
  have h1 : e ∈ entries.drop (entries.takeWhile
      (fun x => x.time.ltb t0)).length := List.mem_of_mem_take hm
  rw [drop_length_takeWhile] at h1
  exact dropWhile_time_lower hch e h1

/-- With every entry inside `[TIME_MIN, TIME_MAX]`, the binary searches
keep the whole index. -/
theorem sliceFor_full {entries : List IndexEntry}
    (h : ∀ e ∈ entries, TIME_MIN.leb e.time = true ∧
      e.time.leb TIME_MAX = true) :
    sliceFor entries TIME_MIN TIME_MAX = entries := by
  unfold sliceFor lowerB upperB
  have h1 : entries.takeWhile (fun x => x.time.ltb TIME_MIN) = [] := by
    cases hc : entries with
    | nil => rfl
    | cons x t =>
      have := (h x (by rw [hc]; simp)).1
      rw [RTime.leb_iff_not_ltb] at this
      rw [List.takeWhile_cons]
      simp only [Bool.not_eq_true'] at this
      simp [this]
  have h2 : entries.takeWhile (fun x => !TIME_MAX.ltb x.time) = entries := by
    rw [List.takeWhile_eq_self_iff]
    intro x hx
    have := (h x hx).2
    rw [RTime.leb_iff_not_ltb] at this
    exact this
  rw [h1, h2]
  simp

/-! ## The merge queue -/

theorem qMin_cons_none {x : MergeHelper} {t : List MergeHelper}
    (ht : qMin t = none) : qMin (x :: t) = some (x, []) := by
  rw [qMin, ht]

theorem qMin_cons_some {x h' : MergeHelper} {t t' : List MergeHelper}
    (ht : qMin t = some (h', t')) :
    qMin (x :: t) = if x.cur.time.leb h'.cur.time = true
      then some (x, t) else some (h', x :: t') := by
  rw [qMin, ht]

theorem qMin_eq_none_iff {q : List MergeHelper} : qMin q = none ↔ q = [] := by
  cases q with
  | nil => simp [qMin]
  | cons h t =>
    cases hq : qMin t with
    | none => rw [qMin_cons_none hq]; simp
    | some pr =>
      obtain ⟨h', t'⟩ := pr
      rw [qMin_cons_some hq]
      by_cases hle : h.cur.time.leb h'.cur.time = true
      · simp [hle]
      · simp [hle]

theorem qMin_perm {q : List MergeHelper} {h : MergeHelper}
    {q' : List MergeHelper} (hq : qMin q = some (h, q')) :
    q.Perm (h :: q') := by
  induction q generalizing h q' with
  | nil => simp [qMin] at hq
  | cons x t ih =>
    cases ht : qMin t with
    | none =>
      rw [qMin_cons_none ht] at hq
      simp only [Option.some.injEq, Prod.mk.injEq] at hq
      obtain ⟨rfl, rfl⟩ := hq
      rw [qMin_eq_none_iff] at ht
      subst ht
      exact List.Perm.refl _
    | some pr =>
      obtain ⟨h', t'⟩ := pr
      rw [qMin_cons_some ht] at hq
      by_cases hle : x.cur.time.leb h'.cur.time = true
      · rw [if_pos hle] at hq
        simp only [Option.some.injEq, Prod.mk.injEq] at hq
        obtain ⟨rfl, rfl⟩ := hq
        exact List.Perm.refl _
      · rw [if_neg hle] at hq
        simp only [Option.some.injEq, Prod.mk.injEq] at hq
        obtain ⟨rfl, rfl⟩ := hq
        exact (List.Perm.cons x (ih ht)).trans (List.Perm.swap h' x t')

theorem qMin_min {q : List MergeHelper} {h : MergeHelper}
    {q' : List MergeHelper} (hq : qMin q = some (h, q')) :
    ∀ h₂ ∈ q, h.cur.time.leb h₂.cur.time = true := by
  induction q generalizing h q' with
  | nil => simp [qMin] at hq
  | cons x t ih =>
    cases ht : qMin t with
    | none =>
      rw [qMin_cons_none ht] at hq
      simp only [Option.some.injEq, Prod.mk.injEq] at hq
      obtain ⟨rfl, rfl⟩ := hq
      rw [qMin_eq_none_iff] at ht
      subst ht
      intro h₂ hm
      rcases List.mem_singleton.mp hm with rfl
      exact RTime.leb_refl _
    | some pr =>
      obtain ⟨h', t'⟩ := pr
      rw [qMin_cons_some ht] at hq
      by_cases hle : x.cur.time.leb h'.cur.time = true
      · rw [if_pos hle] at hq
        simp only [Option.some.injEq, Prod.mk.injEq] at hq
        obtain ⟨rfl, rfl⟩ := hq
        intro h₂ hm
        rcases List.mem_cons.mp hm with rfl | hm
        · exact RTime.leb_refl _
        · exact RTime.leb_trans hle (ih ht h₂ hm)
      · rw [if_neg hle] at hq
        simp only [Option.some.injEq, Prod.mk.injEq] at hq
        obtain ⟨rfl, rfl⟩ := hq
        intro h₂ hm
        rcases List.mem_cons.mp hm with rfl | hm
        · rcases RTime.leb_total h₂.cur.time h'.cur.time with hx | hx
          · exact absurd hx hle
          · exact hx
        · exact ih ht h₂ hm

theorem qsize_cons (h : MergeHelper) (t : List MergeHelper) :
    qsize (h :: t) = 1 + h.rest.length + qsize t := by
  simp only [qsize, List.map_cons, List.sum_cons]

theorem qsize_perm {q q' : List MergeHelper} (hp : q.Perm q') :
    qsize q = qsize q' :=
  (hp.map _).sum_eq

theorem qsize_eq_zero {q : List MergeHelper} (h : qsize q = 0) : q = [] := by
  cases q with
  | nil => rfl
  | cons x t =>
    rw [qsize_cons] at h
    omega

theorem mergeFuel_succ_some {fuel : Nat} {q : List MergeHelper}
    {h : MergeHelper} {q' : List MergeHelper} (hq : qMin q = some (h, q')) :
    mergeFuel (fuel + 1) q = (h.info, h.cur) ::
      mergeFuel fuel
        (match h.rest with
         | [] => q'
         | e :: tl => ⟨e, tl, h.info⟩ :: q') := by
  rw [mergeFuel, hq]

theorem mergeFuel_perm :
    ∀ (fuel : Nat) (q : List MergeHelper), qsize q ≤ fuel →
      (mergeFuel fuel q).Perm (qItems q) := by
  intro fuel
  induction fuel with
  | zero =>
    intro q hq
    rw [qsize_eq_zero (Nat.le_zero.mp hq)]
    exact List.Perm.refl _
  | succ fuel ih =>
    intro q hq
    cases hqm : qMin q with
    | none =>
      rw [qMin_eq_none_iff] at hqm
      subst hqm
      simp [mergeFuel, qMin, qItems]
    | some pr =>
      obtain ⟨h, q'⟩ := pr
      have hperm := qMin_perm hqm
      have hq1 : qsize q = 1 + h.rest.length + qsize q' := by
        rw [qsize_perm hperm, qsize_cons]
      rw [mergeFuel_succ_some hqm]
      cases hr : h.rest with
      | nil =>
        show ((h.info, h.cur) :: mergeFuel fuel q').Perm (qItems q)
        rw [hr] at hq1
        have hfuel : qsize q' ≤ fuel := by
          simp only [List.length_nil] at hq1
          omega
        have h2 : ((h.info, h.cur) :: qItems q').Perm (qItems q) := by
          have h1 : (h.info, h.cur) :: qItems q' = qItems (h :: q') := by
            simp [qItems, hItems, hr]
          rw [h1]
          exact (hperm.flatMap_right hItems).symm
        exact (List.Perm.cons _ (ih q' hfuel)).trans h2
      | cons e tl =>
        show ((h.info, h.cur)
          :: mergeFuel fuel (⟨e, tl, h.info⟩ :: q')).Perm (qItems q)
        rw [hr] at hq1
        have hfuel : qsize (⟨e, tl, h.info⟩ :: q') ≤ fuel := by
          rw [qsize_cons]
          show 1 + tl.length + qsize q' ≤ fuel
          simp only [List.length_cons] at hq1
          omega
        have h2 : ((h.info, h.cur)
            :: qItems (⟨e, tl, h.info⟩ :: q')).Perm (qItems q) := by
          have h1 : (h.info, h.cur) :: qItems (⟨e, tl, h.info⟩ :: q')
              = qItems (h :: q') := by
            simp [qItems, hItems, hr]
          rw [h1]
          exact (hperm.flatMap_right hItems).symm
        exact (List.Perm.cons _ (ih _ hfuel)).trans h2

theorem qItems_time_lower {t : RTime} {q : List MergeHelper}
    (hmin : ∀ h ∈ q, t.leb h.cur.time = true)
    (hch : ∀ h ∈ q,
      List.Chain' (fun a b => a.time.leb b.time = true) (h.cur :: h.rest)) :
    ∀ y ∈ qItems q, t.leb y.2.time = true := by
  intro y hy
  rw [qItems, List.mem_flatMap] at hy
  obtain ⟨h, hmem, hin⟩ := hy
  rw [hItems] at hin
  rcases List.mem_cons.mp hin with rfl | hin
  · exact hmin h hmem
  · obtain ⟨e, he, rfl⟩ := List.mem_map.mp hin
    exact RTime.leb_trans (hmin h hmem) (chain_time_le (hch h hmem) e he)

/-- The merge loop yields timestamps in non-decreasing order when every
queued range is internally time-sorted. -/
theorem mergeFuel_sorted :
    ∀ (fuel : Nat) (q : List MergeHelper), qsize q ≤ fuel →
      (∀ h ∈ q,
        List.Chain' (fun a b => a.time.leb b.time = true) (h.cur :: h.rest)) →
      List.Chain' (fun a b : MsgInfo × IndexEntry =>
        a.2.time.leb b.2.time = true) (mergeFuel fuel q) := by
  intro fuel
  induction fuel with
  | zero =>
    intro q hq hch
    rw [qsize_eq_zero (Nat.le_zero.mp hq)]
    simp [mergeFuel]
  | succ fuel ih =>
    intro q hq hch
    cases hqm : qMin q with
    | none =>
      rw [qMin_eq_none_iff] at hqm
      subst hqm
      simp [mergeFuel, qMin]
    | some pr =>
      obtain ⟨h, q'⟩ := pr
      have hperm := qMin_perm hqm
      have hmin := qMin_min hqm
      have hq1 : qsize q = 1 + h.rest.length + qsize q' := by
        rw [qsize_perm hperm, qsize_cons]
      have hchh : List.Chain' (fun a b => a.time.leb b.time = true)
          (h.cur :: h.rest) :=
        hch h (hperm.mem_iff.mpr (List.mem_cons_self _ _))
      have hch' : ∀ h₂ ∈ q',
          List.Chain' (fun a b => a.time.leb b.time = true)
            (h₂.cur :: h₂.rest) :=
        fun h₂ hm => hch h₂ (hperm.mem_iff.mpr (List.mem_cons_of_mem _ hm))
      have hmin' : ∀ h₂ ∈ q', h.cur.time.leb h₂.cur.time = true :=
        fun h₂ hm => hmin h₂ (hperm.mem_iff.mpr (List.mem_cons_of_mem _ hm))
      rw [mergeFuel_succ_some hqm]
      cases hr : h.rest with
      | nil =>
        show List.Chain' _ ((h.info, h.cur) :: mergeFuel fuel q')
        rw [hr] at hq1
        have hfuel : qsize q' ≤ fuel := by
          simp only [List.length_nil] at hq1
          omega
        rw [List.chain'_cons']
        refine ⟨?_, ih q' hfuel hch'⟩
        intro b hb
        have hbm : b ∈ qItems q' :=
          (mergeFuel_perm fuel q' hfuel).mem_iff.mp (List.mem_of_mem_head? hb)
        exact qItems_time_lower hmin' hch' b hbm
      | cons e tl =>
        show List.Chain' _
          ((h.info, h.cur) :: mergeFuel fuel (⟨e, tl, h.info⟩ :: q'))
        rw [hr] at hq1
        have hfuel : qsize (⟨e, tl, h.info⟩ :: q') ≤ fuel := by
          rw [qsize_cons]
          show 1 + tl.length + qsize q' ≤ fuel
          simp only [List.length_cons] at hq1
          omega
        rw [hr] at hchh
        have hcur_e : h.cur.time.leb e.time = true :=
          (List.chain'_cons.mp hchh).1
        have hch'' : ∀ h₂ ∈ (⟨e, tl, h.info⟩ : MergeHelper) :: q',
            List.Chain' (fun a b => a.time.leb b.time = true)
              (h₂.cur :: h₂.rest) := by
          intro h₂ hm
          rcases List.mem_cons.mp hm with rfl | hm
          · exact hchh.tail
          · exact hch' h₂ hm
        have hmin'' : ∀ h₂ ∈ (⟨e, tl, h.info⟩ : MergeHelper) :: q',
            h.cur.time.leb h₂.cur.time = true := by
          intro h₂ hm
          rcases List.mem_cons.mp hm with rfl | hm
          · exact hcur_e
          · exact hmin' h₂ hm
        rw [List.chain'_cons']
        refine ⟨?_, ih _ hfuel hch''⟩
        intro b hb
        have hbm : b ∈ qItems (⟨e, tl, h.info⟩ :: q') :=
          (mergeFuel_perm fuel _ hfuel).mem_iff.mp (List.mem_of_mem_head? hb)
        exact qItems_time_lower hmin'' hch'' b hbm

/-- Inversion for the queue construction of `getViewByTopic`: every queued
helper is the non-empty slice of some requested topic. -/
theorem mem_helpersFor {tind : List (String × List IndexEntry)}
    {trec : List (String × MsgInfo)} {topics : List String} {t0 t1 : RTime}
    {h : MergeHelper} (hm : h ∈ helpersFor tind trec topics t0 t1) :
    ∃ tp entries info, lookupA tind tp = some entries ∧
      lookupA trec tp = some info ∧
      sliceFor entries t0 t1 = h.cur :: h.rest ∧ h.info = info := by
  induction topics with
  | nil => simp [helpersFor] at hm
  | cons tp rest ih =>
    rw [helpersFor, List.foldr_cons] at hm
    rcases hl1 : lookupA tind tp with - | entries
    · simp only [hl1] at hm
      exact ih hm
    · rcases hl2 : lookupA trec tp with - | info
      · simp only [hl1, hl2] at hm
        exact ih hm
      · simp only [hl1, hl2] at hm
        rcases hsl : sliceFor entries t0 t1 with - | ⟨e, tl⟩
        · simp only [hsl] at hm
          exact ih hm
        · simp only [hsl] at hm
          rcases List.mem_cons.mp hm with rfl | hm
          · exact ⟨tp, entries, info, hl1, hl2, hsl, rfl⟩
          · exact ih hm

/-! ## Reading a definition record -/

theorem String.length_pos_of_ne_empty {s : String} (h : s ≠ "") :
    0 < s.length := by
  cases s with
  | mk data =>
    cases data with
    | nil => exact absurd rfl h
    | cons c t => simp [String.length]

/-- `Bag::readDef` on a position holding a well-formed definition record:
all field checks pass and the topic is admitted to `topics_recorded_` if
it is not already there. -/
theorem readDefM_defRec {rs : List (Nat × Rec)} {pos : Nat} {tp : String}
    {info : MsgInfo} {acc : List (String × MsgInfo)}
    (hrec : recordAt rs pos = some (defRec tp info))
    (htp : tp ≠ "") (htpl : tp.length ≤ UINT_MAX)
    (hmd5 : info.md5sum.length = 32)
    (hdt : info.datatype ≠ "") (hdtl : info.datatype.length ≤ UINT_MAX)
    (hdefl : info.msg_def.length ≤ UINT_MAX) :
    readDefM rs pos acc = some (if (lookupA acc tp).isSome then acc
      else insertSortedA tp ⟨tp, info.msg_def, info.md5sum, info.datatype⟩ acc) := by
  have htp1 : 0 < tp.length := String.length_pos_of_ne_empty htp
  have hdt1 : 0 < info.datatype.length := String.length_pos_of_ne_empty hdt
  have hop : checkFieldM (defRec tp info) "op" 1 1 = some [OP_MSG_DEF] := by
    simp +decide [checkFieldM, findField, defRec, lookupA]
  have htopic : checkFieldM (defRec tp info) "topic" 1 UINT_MAX
      = some (strBytes tp) := by
    simp +decide [checkFieldM, findField, defRec, lookupA, strBytes_length]
    omega
  have hmd : checkFieldM (defRec tp info) "md5" 32 32
      = some (strBytes info.md5sum) := by
    simp +decide [checkFieldM, findField, defRec, lookupA, strBytes_length,
      hmd5]
  have hty : checkFieldM (defRec tp info) "type" 1 UINT_MAX
      = some (strBytes info.datatype) := by
    simp +decide [checkFieldM, findField, defRec, lookupA, strBytes_length]
    omega
  have hdf : checkFieldM (defRec tp info) "def" 0 UINT_MAX
      = some (strBytes info.msg_def) := by
    simp +decide [checkFieldM, findField, defRec, lookupA, strBytes_length]
    omega
  unfold readDefM
  rw [hrec]
  simp only [hop, htopic, hmd, hty, hdf, bytesToStr_strBytes]
  simp only [OP_MSG_DEF]
  rw [apply_ite some, if_neg (by simp)]

/-- `Bag::readDefs` over a map of non-empty indexes, each first entry
pointing at a well-formed definition record: the bootstrap succeeds and
populates every not-yet-recorded topic from its record. -/
theorem readDefsM_ok {rs : List (Nat × Rec)} :
    ∀ (tind : List (String × List IndexEntry)) (acc : List (String × MsgInfo)),
      (tind.map Prod.fst).Nodup →
      (∀ tp entries, (tp, entries) ∈ tind → ∃ e es info,
        entries = e :: es ∧ recordAt rs e.pos = some (defRec tp info) ∧
        tp ≠ "" ∧ tp.length ≤ UINT_MAX ∧ info.md5sum.length = 32 ∧
        info.datatype ≠ "" ∧ info.datatype.length ≤ UINT_MAX ∧
        info.msg_def.length ≤ UINT_MAX) →
      (∀ tp entries, (tp, entries) ∈ tind → lookupA acc tp = none) →
      ∃ trec, readDefsM rs tind acc = some trec ∧
        (∀ tp entries, (tp, entries) ∈ tind → ∃ e es info,
          entries = e :: es ∧ recordAt rs e.pos = some (defRec tp info) ∧
          lookupA trec tp
            = some ⟨tp, info.msg_def, info.md5sum, info.datatype⟩) ∧
        (∀ k v, lookupA acc k = some v → lookupA trec k = some v) := by
  intro tind
  induction tind with
  | nil =>
    intro acc hnd hok hfresh
    exact ⟨acc, rfl, by simp, fun k v hv => hv⟩
  | cons hd rest ih =>
    obtain ⟨tp, entries⟩ := hd
    intro acc hnd hok hfresh
    obtain ⟨e, es, info, hent, hrec, htp, htpl, hmd5, hdt, hdtl, hdefl⟩ :=
      hok tp entries (List.mem_cons_self _ _)
    have hacc : lookupA acc tp = none :=
      hfresh tp entries (List.mem_cons_self _ _)
    have hstep := @readDefM_defRec rs e.pos tp info acc hrec htp htpl hmd5
      hdt hdtl hdefl
    rw [hacc] at hstep
    simp only [Option.isSome_none, Bool.false_eq_true, if_false] at hstep
    set newInfo : MsgInfo := ⟨tp, info.msg_def, info.md5sum, info.datatype⟩
      with hnewInfo
    have hacc1 : lookupA (insertSortedA tp newInfo acc) tp = some newInfo :=
      lookupA_insertSortedA_self tp newInfo hacc
    simp only [List.map_cons, List.nodup_cons] at hnd
    have hfresh1 : ∀ tp' entries', (tp', entries') ∈ rest →
        lookupA (insertSortedA tp newInfo acc) tp' = none := by
      intro tp' entries' hm
      have hne : tp ≠ tp' := by
        rintro rfl
        exact hnd.1 (List.mem_map.mpr ⟨(tp, entries'), hm, rfl⟩)
      rw [lookupA_insertSortedA_ne hne]
      exact hfresh tp' entries' (List.mem_cons_of_mem _ hm)
    obtain ⟨trec, hrun, hconc, hpres⟩ := ih (insertSortedA tp newInfo acc)
      hnd.2
      (fun tp' entries' hm => hok tp' entries' (List.mem_cons_of_mem _ hm))
      hfresh1
    refine ⟨trec, ?_, ?_, ?_⟩
    · rw [readDefsM, hent]
      simp only [List.head?_cons, hstep]
      exact hrun
    · intro tp' entries' hm
      rcases List.mem_cons.mp hm with heq | hm
      · obtain ⟨rfl, rfl⟩ := Prod.mk.injEq .. ▸ heq
        exact ⟨e, es, info, hent, hrec, hpres tp' newInfo hacc1⟩
      · exact hconc tp' entries' hm
    · intro k v hv
      have hk : lookupA (insertSortedA tp newInfo acc) k = some v := by
        have hne : tp ≠ k := by
          rintro rfl
          rw [hacc] at hv
          exact Option.noConfusion hv
        rw [lookupA_insertSortedA_ne hne]
        exact hv
      exact hpres k v hk

/-! ## Round-tripping the serialized index entries -/

theorem encodeEntry_length (e : IndexEntry) : (encodeEntry e).length = 16 :=
  rfl

theorem flatMap_encodeEntry_length (entries : List IndexEntry) :
    (entries.flatMap encodeEntry).length = entries.length * 16 := by
  induction entries with
  | nil => rfl
  | cons e t ih =>
    rw [List.flatMap_cons, List.length_append, encodeEntry_length, ih,
      List.length_cons]
    omega

theorem decodeEntries_encode :
    ∀ entries : List IndexEntry,
      (∀ e ∈ entries, e.time.sec < 2 ^ 32 ∧ e.time.nsec < 2 ^ 32 ∧
        e.pos < 2 ^ 64) →
      decodeEntries entries.length (entries.flatMap encodeEntry)
        = entries := by
  intro entries
  induction entries with
  | nil => intro _; rfl
  | cons e t ih =>
    intro hb
    obtain ⟨h1, h2, h3⟩ := hb e (List.mem_cons_self _ _)
    have hrest := fun x hx => hb x (List.mem_cons_of_mem _ hx)
    show (⟨⟨decodeLE (u32le e.time.sec), decodeLE (u32le e.time.nsec)⟩,
        decodeLE (u64le e.pos)⟩ : IndexEntry)
      :: decodeEntries t.length (t.flatMap encodeEntry) = e :: t
    rw [decodeLE_u32le, decodeLE_u32le, decodeLE_u64le,
      Nat.mod_eq_of_lt h1, Nat.mod_eq_of_lt h2, Nat.mod_eq_of_lt h3,
      ih hrest]

/-! ## Field checks on the emitted record types -/

theorem checkFieldM_defRec_op (tp : String) (info : MsgInfo) :
    checkFieldM (defRec tp info) "op" 1 1 = some [OP_MSG_DEF] := by
  simp +decide [checkFieldM, findField, defRec, lookupA]

theorem checkFieldM_indexRec_op (tp dt : String) (es : List IndexEntry) :
    checkFieldM (indexRec tp dt es) "op" 1 1 = some [OP_INDEX_DATA] := by
  simp +decide [checkFieldM, findField, indexRec, lookupA]

theorem checkFieldM_indexRec_ver (tp dt : String) (es : List IndexEntry) :
    checkFieldM (indexRec tp dt es) "ver" 4 4
      = some (u32le INDEX_VERSION) := by
  simp +decide [checkFieldM, findField, indexRec, lookupA, u32le_length]

theorem checkFieldM_indexRec_topic {tp : String} (htp : tp ≠ "")
    (htpl : tp.length ≤ UINT_MAX) (dt : String) (es : List IndexEntry) :
    checkFieldM (indexRec tp dt es) "topic" 1 UINT_MAX
      = some (strBytes tp) := by
  have h1 : 0 < tp.length := String.length_pos_of_ne_empty htp
  simp +decide [checkFieldM, findField, indexRec, lookupA, strBytes_length]
  omega

theorem checkFieldM_indexRec_type (tp : String) {dt : String}
    (hdt : dt ≠ "") (hdtl : dt.length ≤ UINT_MAX) (es : List IndexEntry) :
    checkFieldM (indexRec tp dt es) "type" 1 UINT_MAX
      = some (strBytes dt) := by
  have h1 : 0 < dt.length := String.length_pos_of_ne_empty hdt
  simp +decide [checkFieldM, findField, indexRec, lookupA, strBytes_length]
  omega

theorem checkFieldM_indexRec_count (tp dt : String) (es : List IndexEntry) :
    checkFieldM (indexRec tp dt es) "count" 4 4
      = some (u32le es.length) := by
  simp +decide [checkFieldM, findField, indexRec, lookupA, u32le_length]

theorem checkFieldM_dataRec_op (tp : String) (info : MsgInfo) (t : RTime)
    (m : WMsg) :
    checkFieldM (dataRec tp info t m) "op" 1 1 = some [OP_MSG_DATA] := by
  simp +decide [checkFieldM, findField, dataRec, lookupA]

theorem checkFieldM_dataRec_topic {tp : String} (htp : tp ≠ "")
    (htpl : tp.length ≤ UINT_MAX) (info : MsgInfo) (t : RTime) (m : WMsg) :
    checkFieldM (dataRec tp info t m) "topic" 1 UINT_MAX
      = some (strBytes tp) := by
  have h1 : 0 < tp.length := String.length_pos_of_ne_empty htp
  simp +decide [checkFieldM, findField, dataRec, lookupA, strBytes_length]
  omega

theorem checkFieldM_dataRec_md5 (tp : String) {info : MsgInfo}
    (hmd5 : info.md5sum.length = 32) (t : RTime) (m : WMsg) :
    checkFieldM (dataRec tp info t m) "md5" 32 32
      = some (strBytes info.md5sum) := by
  simp +decide [checkFieldM, findField, dataRec, lookupA, strBytes_length,
    hmd5]

theorem checkFieldM_dataRec_type (tp : String) {info : MsgInfo}
    (hdt : info.datatype ≠ "") (hdtl : info.datatype.length ≤ UINT_MAX)
    (t : RTime) (m : WMsg) :
    checkFieldM (dataRec tp info t m) "type" 1 UINT_MAX
      = some (strBytes info.datatype) := by
  have h1 : 0 < info.datatype.length := String.length_pos_of_ne_empty hdt
  simp +decide [checkFieldM, findField, dataRec, lookupA, strBytes_length]
  omega

/-! ## `Bag::instantiate` on the records the writer emitted -/

theorem instantiateLoop_data {rs : List (Nat × Rec)} {pos : Nat}
    {tp : String} {info : MsgInfo} {t : RTime} {m : WMsg} (fuel : Nat)
    (h : recordAt rs pos = some (dataRec tp info t m)) :
    instantiateLoop rs (fuel + 1) pos = some (dataRec tp info t m) := by
  rw [instantiateLoop]
  simp only [h, checkFieldM_dataRec_op]
  rw [if_neg (by decide)]

theorem instantiateLoop_def {rs : List (Nat × Rec)} {pos : Nat}
    {tp : String} {info : MsgInfo} (fuel : Nat)
    (h : recordAt rs pos = some (defRec tp info)) :
    instantiateLoop rs (fuel + 1) pos
      = instantiateLoop rs fuel (pos + (defRec tp info).size) := by
  rw [instantiateLoop]
  simp only [h, checkFieldM_defRec_op]
  simp

theorem instantiateAt_data {rs : List (Nat × Rec)} {pos : Nat}
    {tp : String} {info : MsgInfo} {t : RTime} {m : WMsg}
    (h : recordAt rs pos = some (dataRec tp info t m))
    (htp : tp ≠ "") (htpl : tp.length ≤ UINT_MAX)
    (hmd5 : info.md5sum.length = 32)
    (hdt : info.datatype ≠ "") (hdtl : info.datatype.length ≤ UINT_MAX) :
    instantiateAt rs pos = some m.payload := by
  unfold instantiateAt
  rw [instantiateLoop_data rs.length h]
  simp only [checkFieldM_dataRec_op, checkFieldM_dataRec_topic htp htpl,
    checkFieldM_dataRec_md5 tp hmd5, checkFieldM_dataRec_type tp hdt hdtl]
  rw [if_neg (by decide)]
  rfl

theorem instantiateAt_def_data {rs : List (Nat × Rec)} {pos : Nat}
    {tp : String} {info : MsgInfo} {t : RTime} {m : WMsg}
    (h1 : recordAt rs pos = some (defRec tp info))
    (h2 : recordAt rs (pos + (defRec tp info).size)
      = some (dataRec tp info t m))
    (htp : tp ≠ "") (htpl : tp.length ≤ UINT_MAX)
    (hmd5 : info.md5sum.length = 32)
    (hdt : info.datatype ≠ "") (hdtl : info.datatype.length ≤ UINT_MAX) :
    instantiateAt rs pos = some m.payload := by
  have hne : rs ≠ [] := by
    rintro rfl
    rw [recordAt_nil] at h1
    exact Option.noConfusion h1
  obtain ⟨k, hk⟩ : ∃ k, rs.length = k + 1 :=
    ⟨rs.length - 1, by cases rs with
      | nil => exact absurd rfl hne
      | cons x xs => simp⟩
  unfold instantiateAt
  rw [hk, instantiateLoop_def (k + 1) h1, instantiateLoop_data k h2]
  simp only [checkFieldM_dataRec_op, checkFieldM_dataRec_topic htp htpl,
    checkFieldM_dataRec_md5 tp hmd5, checkFieldM_dataRec_type tp hdt hdtl]
  rw [if_neg (by decide)]
  rfl

/-! ## Small auxiliary facts -/

theorem RTime.leb_sec_le {a b : RTime} (h : a.leb b = true) :
    a.sec ≤ b.sec := by
  unfold RTime.leb at h
  simp only [Bool.or_eq_true, Bool.and_eq_true, decide_eq_true_eq] at h
  omega

theorem lookupA_mem {α : Type} :
    ∀ {l : List (String × α)} {k : String} {v : α},
      lookupA l k = some v → (k, v) ∈ l := by
  intro l
  induction l with
  | nil =>
    intro k v h
    exact Option.noConfusion h
  | cons hd t ih =>
    obtain ⟨k', v'⟩ := hd
    intro k v h
    simp only [lookupA] at h
    by_cases hk : k' = k
    · subst hk
      have hv : v' = v := by simpa using h
      subst hv
      exact List.mem_cons_self _ _
    · simp only [hk, if_false] at h
      exact List.mem_cons_of_mem _ (ih h)

theorem recordAt_mid3 {l₁ l₂ l₃ : List (Nat × Rec)} {p : Nat}
    (h1 : ∀ pr ∈ l₁, pr.1 ≠ p) (h3 : ∀ pr ∈ l₃, pr.1 ≠ p) :
    recordAt ((l₁ ++ l₂) ++ l₃) p = recordAt l₂ p := by
  rw [recordAt_append_right h3, recordAt_append_left h1]

theorem recordAt_left3 {l₁ l₂ l₃ : List (Nat × Rec)} {p : Nat}
    (h2 : ∀ pr ∈ l₂, pr.1 ≠ p) (h3 : ∀ pr ∈ l₃, pr.1 ≠ p) :
    recordAt ((l₁ ++ l₂) ++ l₃) p = recordAt l₁ p := by
  rw [recordAt_append_right h3, recordAt_append_right h2]

theorem mkIdx_length (trec : List (String × MsgInfo)) :
    ∀ (tind : List (String × List IndexEntry)) (p : Nat),
      (mkIdx trec tind p).length = tind.length := by
  intro tind
  induction tind with
  | nil => intro p; rfl
  | cons hd t ih =>
    obtain ⟨tp, es⟩ := hd
    intro p
    simp only [mkIdx, List.length_cons, ih]

theorem forall₂_map_eq {α β γ : Type} {R : α → β → Prop} :
    ∀ {l₁ : List α} {l₂ : List β}, List.Forall₂ R l₁ l₂ →
      ∀ {f : α → γ} {g : β → γ},
      (∀ a b, a ∈ l₁ → b ∈ l₂ → R a b → f a = g b) →
      l₁.map f = l₂.map g := by
  intro l₁ l₂ h
  induction h with
  | nil => intro f g _; rfl
  | cons hab hrest ih =>
    intro f g hfg
    rw [List.map_cons, List.map_cons,
      hfg _ _ (List.mem_cons_self _ _) (List.mem_cons_self _ _) hab,
      ih (fun a b ha hb hr =>
        hfg a b (List.mem_cons_of_mem _ ha) (List.mem_cons_of_mem _ hb) hr)]

theorem forall₂_flatMap_eq {α β γ : Type} {R : α → β → Prop} :
    ∀ {l₁ : List α} {l₂ : List β}, List.Forall₂ R l₁ l₂ →
      ∀ {f : α → List γ} {g : β → List γ},
      (∀ a b, a ∈ l₁ → b ∈ l₂ → R a b → f a = g b) →
      l₁.flatMap f = l₂.flatMap g := by
  intro l₁ l₂ h
  induction h with
  | nil => intro f g _; rfl
  | cons hab hrest ih =>
    intro f g hfg
    rw [List.flatMap_cons, List.flatMap_cons,
      hfg _ _ (List.mem_cons_self _ _) (List.mem_cons_self _ _) hab,
      ih (fun a b ha hb hr =>
        hfg a b (List.mem_cons_of_mem _ ha) (List.mem_cons_of_mem _ hb) hr)]

theorem forall₂_exists_right {α β : Type} {R : α → β → Prop} :
    ∀ {l₁ : List α} {l₂ : List β}, List.Forall₂ R l₁ l₂ →
      ∀ a ∈ l₁, ∃ b ∈ l₂, R a b := by
  intro l₁ l₂ h
  induction h with
  | nil => simp
  | cons hab _ ih =>
    intro a ha
    rcases List.mem_cons.mp ha with rfl | ha
    · exact ⟨_, List.mem_cons_self _ _, hab⟩
    · obtain ⟨b, hb, hr⟩ := ih a ha
      exact ⟨b, List.mem_cons_of_mem _ hb, hr⟩

theorem flatMap_congr {α β : Type} {l : List α} {f g : α → List β}
    (h : ∀ a ∈ l, f a = g a) : l.flatMap f = l.flatMap g := by
  induction l with
  | nil => rfl
  | cons x t ih =>
    rw [List.flatMap_cons, List.flatMap_cons, h x (List.mem_cons_self _ _),
      ih (fun a ha => h a (List.mem_cons_of_mem _ ha))]

/-! ## Partitioning the call sequence into topic fibers -/

theorem mem_msgsOn_topic {tp : String} {x : String × RTime × WMsg}
    {msgs : List (String × RTime × WMsg)} (h : x ∈ msgsOn tp msgs) :
    x ∈ msgs ∧ x.1 = tp := by
  unfold msgsOn at h
  refine ⟨List.mem_of_mem_filter h, ?_⟩
  have := List.of_mem_filter h
  simpa using this

theorem self_mem_msgsOn {x : String × RTime × WMsg}
    {msgs : List (String × RTime × WMsg)} (h : x ∈ msgs) :
    x ∈ msgsOn x.1 msgs := by
  unfold msgsOn
  exact List.mem_filter.mpr ⟨h, by simp⟩

theorem msgsOn_filter_ne {tp k : String} (hne : tp ≠ k)
    (msgs : List (String × RTime × WMsg)) :
    msgsOn tp (msgs.filter (fun x => !decide (x.1 = k))) = msgsOn tp msgs := by
  unfold msgsOn
  rw [List.filter_filter]
  congr 1
  funext x
  by_cases hx : x.1 = tp
  · simp [hx, hne]
  · simp [hx]

theorem flatMap_msgsOn_perm :
    ∀ (keys : List String) (msgs : List (String × RTime × WMsg)),
      keys.Nodup → (∀ x ∈ msgs, x.1 ∈ keys) →
      (keys.flatMap (fun tp => msgsOn tp msgs)).Perm msgs := by
  intro keys
  induction keys with
  | nil =>
    intro msgs _ hcov
    have hnil : msgs = [] := by
      cases msgs with
      | nil => rfl
      | cons x t => exact absurd (hcov x (List.mem_cons_self _ _)) (by simp)
    subst hnil
    exact List.Perm.refl _
  | cons k ks ih =>
    intro msgs hnd hcov
    rw [List.flatMap_cons]
    have hflat : ks.flatMap (fun tp => msgsOn tp msgs)
        = ks.flatMap
            (fun tp => msgsOn tp (msgs.filter (fun x => !decide (x.1 = k)))) := by
      refine flatMap_congr ?_
      intro tp hm
      have hne : tp ≠ k := by
        rintro rfl
        exact (List.nodup_cons.mp hnd).1 hm
      exact (msgsOn_filter_ne hne msgs).symm
    have hcov' : ∀ x ∈ msgs.filter (fun x => !decide (x.1 = k)), x.1 ∈ ks := by
      intro x hx
      have hm := List.mem_of_mem_filter hx
      have hp := List.of_mem_filter hx
      have hxk : x.1 ≠ k := by simpa using hp
      rcases List.mem_cons.mp (hcov x hm) with h1 | h1
      · exact absurd h1 hxk
      · exact h1
    have hperm2 := ih (msgs.filter (fun x => !decide (x.1 = k)))
      (List.nodup_cons.mp hnd).2 hcov'
    rw [hflat]
    refine List.Perm.trans (hperm2.append_left (msgsOn k msgs)) ?_
    have hpart := List.filter_append_perm
      (fun x : String × RTime × WMsg => decide (x.1 = k)) msgs
    exact hpart

/-! ## Building the merge queue over every topic -/

theorem helpersFor_cons_some {tind : List (String × List IndexEntry)}
    {trec : List (String × MsgInfo)} {tp : String} {rest : List String}
    {t0 t1 : RTime} {entries : List IndexEntry} {info : MsgInfo}
    {e : IndexEntry} {tl : List IndexEntry}
    (h1 : lookupA tind tp = some entries) (h2 : lookupA trec tp = some info)
    (h3 : sliceFor entries t0 t1 = e :: tl) :
    helpersFor tind trec (tp :: rest) t0 t1
      = ⟨e, tl, info⟩ :: helpersFor tind trec rest t0 t1 := by
  rw [helpersFor, List.foldr_cons]
  simp only [h1, h2, h3]
  rfl

theorem helpersFor_forall₂ {tind : List (String × List IndexEntry)}
    {trec : List (String × MsgInfo)} {t0 t1 : RTime} :
    ∀ {tsub : List (String × List IndexEntry)},
      (∀ hd ∈ tsub, lookupA tind hd.1 = some hd.2 ∧
        (lookupA trec hd.1).isSome ∧ sliceFor hd.2 t0 t1 = hd.2 ∧
        hd.2 ≠ []) →
      List.Forall₂
        (fun (hd : String × List IndexEntry) (h : MergeHelper) =>
          h.cur :: h.rest = hd.2 ∧ lookupA tind hd.1 = some hd.2 ∧
          lookupA trec hd.1 = some h.info)
        tsub (helpersFor tind trec (tsub.map Prod.fst) t0 t1) := by
  intro tsub
  induction tsub with
  | nil =>
    intro _
    exact List.Forall₂.nil
  | cons hd rest ih =>
    obtain ⟨tp, es⟩ := hd
    intro hall
    obtain ⟨hlkT, hlkR, hslice, hne⟩ := hall _ (List.mem_cons_self _ _)
    cases es with
    | nil => exact absurd rfl hne
    | cons e tl =>
      obtain ⟨info, hinfo⟩ := Option.isSome_iff_exists.mp hlkR
      rw [List.map_cons, helpersFor_cons_some hlkT hinfo hslice]
      exact List.Forall₂.cons ⟨rfl, hlkT, hinfo⟩
        (ih (fun x hx => hall x (List.mem_cons_of_mem _ hx)))

theorem hItems_eq (h : MergeHelper) :
    hItems h = (h.cur :: h.rest).map (fun e => (h.info, e)) := rfl

/-! ## Walking the appended index block -/

/-- `Bag::readIndex` over the block `writeIndex` appended: every record
is found where `mkIdx` placed it, all field checks pass, the serialized
entries decode back, and — the topics arriving in ascending map order —
each insertion appends at the end, so the reader rebuilds exactly the
writer's `topic_indexes_` map. -/
theorem readIndexLoop_run {rs : List (Nat × Rec)}
    {trec : List (String × MsgInfo)} :
    ∀ (tind : List (String × List IndexEntry)) (fuel p : Nat)
      (acc : List (String × List IndexEntry)),
      tind.length < fuel →
      (∀ pr ∈ mkIdx trec tind p, recordAt rs pr.1 = some pr.2) →
      recordAt rs (mkIdxEnd trec tind p) = none →
      List.Chain' (fun a b => strLt a b = true) (tind.map Prod.fst) →
      (∀ a ∈ acc.map Prod.fst, ∀ c ∈ tind.map Prod.fst, strLt a c = true) →
      (∀ tp es, (tp, es) ∈ tind →
        tp ≠ "" ∧ tp.length ≤ UINT_MAX ∧
        (∃ i, lookupA trec tp = some i ∧ i.datatype ≠ "" ∧
          i.datatype.length ≤ UINT_MAX) ∧
        es.length < 2 ^ 32 ∧
        (∀ e ∈ es, e.time.sec < 2 ^ 32 ∧ e.time.nsec < 2 ^ 32 ∧
          e.pos < 2 ^ 64)) →
      readIndexLoop rs fuel p acc = some (acc ++ tind) := by
  intro tind
  induction tind with
  | nil =>
    intro fuel p acc hfuel hrec hend hch hacc hgood
    obtain ⟨f, rfl⟩ : ∃ f, fuel = f + 1 := ⟨fuel - 1, by omega⟩
    have hend' : recordAt rs p = none := hend
    rw [readIndexLoop]
    simp [hend']
  | cons hd rest ih =>
    obtain ⟨tp, es⟩ := hd
    intro fuel p acc hfuel hrec hend hch hacc hgood
    obtain ⟨f, rfl⟩ : ∃ f, fuel = f + 1 := ⟨fuel - 1, by omega⟩
    obtain ⟨htp, htpl, ⟨i, hlkI, hdt, hdtl⟩, heslen, hes⟩ :=
      hgood tp es (List.mem_cons_self _ _)
    have hmk : mkIdx trec ((tp, es) :: rest) p
        = (p, indexRec tp i.datatype es)
          :: mkIdx trec rest (p + (indexRec tp i.datatype es).size) := by
      simp only [mkIdx, hlkI]
    have hend' : recordAt rs (mkIdxEnd trec rest
        (p + (indexRec tp i.datatype es).size)) = none := by
      have : mkIdxEnd trec ((tp, es) :: rest) p
          = mkIdxEnd trec rest (p + (indexRec tp i.datatype es).size) := by
        simp only [mkIdxEnd, hlkI]
      rw [← this]
      exact hend
    rw [hmk] at hrec
    have hrec0 : recordAt rs p = some (indexRec tp i.datatype es) :=
      hrec _ (List.mem_cons_self _ _)
    have hrecRest := fun pr hpr => hrec pr (List.mem_cons_of_mem _ hpr)
    have haccN : lookupA acc tp = none := by
      apply lookupA_eq_none_of_not_mem
      intro hmem
      have := hacc tp hmem tp (by simp)
      rw [strLt_irrefl] at this
      exact Bool.noConfusion this
    have hcount : decodeLE (u32le es.length) = es.length := by
      rw [decodeLE_u32le, Nat.mod_eq_of_lt heslen]
    rw [readIndexLoop]
    simp only [hrec0, checkFieldM_indexRec_op, checkFieldM_indexRec_ver,
      checkFieldM_indexRec_topic htp htpl, checkFieldM_indexRec_type tp hdt hdtl,
      checkFieldM_indexRec_count, hcount, decodeLE_u32le]
    rw [if_neg (by decide), if_neg (by decide)]
    have hlen16 : es.length * 16 = (indexRec tp i.datatype es).data.length := by
      show es.length * 16 = (es.flatMap encodeEntry).length
      rw [flatMap_encodeEntry_length]
    rw [if_neg (by simp [hlen16]), bytesToStr_strBytes]
    have hdec : decodeEntries es.length (indexRec tp i.datatype es).data
        = es := decodeEntries_encode es hes
    rw [hdec, haccN]
    simp only [Option.isSome_none, Bool.false_eq_true, if_false]
    have hins : insertSortedA tp es acc = acc ++ [(tp, es)] :=
      insertSortedA_append es
        (fun k hk => hacc k hk tp (by simp))
    rw [hins]
    have hch' : List.Chain' (fun a b => strLt a b = true)
        (rest.map Prod.fst) := by
      rw [List.map_cons] at hch
      exact hch.tail
    have hacc' : ∀ a ∈ (acc ++ [(tp, es)]).map Prod.fst,
        ∀ c ∈ rest.map Prod.fst, strLt a c = true := by
      intro a ha c hc
      rw [List.map_append] at ha
      rcases List.mem_append.mp ha with ha | ha
      · exact hacc a ha c (by simp [hc])
      · rcases List.mem_singleton.mp (by simpa using ha) with rfl
        rw [List.map_cons] at hch
        exact chain_strLt_head hch c hc
    have hres := ih f (p + (indexRec tp i.datatype es).size)
      (acc ++ [(tp, es)])
      (by simp only [List.length_cons] at hfuel; omega)
      hrecRest hend' hch' hacc'
      (fun tp' es' hm => hgood tp' es' (List.mem_cons_of_mem _ hm))
    rw [hres, List.append_assoc, List.singleton_append]

/-! ## The closed file and the reader bootstrap -/

theorem fileOf_bagClose_versionLine (b : WBag) :
    (fileOf (bagClose b)).versionLine = b.versionLine := by
  show (bagClose b).versionLine = b.versionLine
  rw [bagClose_eq]

theorem fileOf_bagClose_records {b : WBag} (W : WFile b) :
    (fileOf (bagClose b)).records
      = (b.records ++ mkIdx b.topics_recorded b.topic_indexes b.record_pos)
        ++ [(16, fileHeaderRec b.record_pos)] := by
  show (bagClose b).records = _
  rw [bagClose_eq, W.fhpos]

/-- The facts the reader-side proofs need about one topic of a writer
satisfying the data invariant. -/
theorem wdata_topic_package {msgs : List (String × RTime × WMsg)} {b : WBag}
    (D : WData msgs b) :
    ∀ tp es, (tp, es) ∈ b.topic_indexes → ∃ info x₀ xs,
      lookupA b.topic_indexes tp = some es ∧
      lookupA b.topics_recorded tp = some info ∧
      List.Forall₂ (EntrySpec b.records b.record_pos tp info)
        es (msgsOn tp msgs) ∧
      (∀ e es', es = e :: es' →
        recordAt b.records e.pos = some (defRec tp info)) ∧
      msgsOn tp msgs = x₀ :: xs ∧ info = snapInfo tp x₀.2.2 ∧
      x₀ ∈ msgs ∧ x₀.1 = tp ∧ es ≠ [] := by
  intro tp es hm
  have hlkT : lookupA b.topic_indexes tp = some es :=
    lookupA_of_mem_nodup D.keys_nodup hm
  obtain ⟨info, hlkR, hforall, hhead⟩ := D.hind tp es hlkT
  obtain ⟨x₀, xs, hx₀, hinfo⟩ := D.hinfo tp info hlkR
  have hx₀m : x₀ ∈ msgsOn tp msgs := by
    rw [hx₀]
    exact List.mem_cons_self _ _
  obtain ⟨hx₀msgs, hx₀tp⟩ := mem_msgsOn_topic hx₀m
  have hne : es ≠ [] := by
    intro hnil
    have := hforall.length_eq
    rw [hnil, hx₀] at this
    simp at this
  exact ⟨info, x₀, xs, hlkT, hlkR, hforall, hhead, hx₀, hinfo,
    hx₀msgs, hx₀tp, hne⟩

/-- Per-entry bounds and times, read off the correspondence and the
per-call side conditions. -/
theorem wdata_entry_package {msgs : List (String × RTime × WMsg)} {b : WBag}
    {tp : String} {info : MsgInfo} {es : List IndexEntry}
    (hgood : ∀ x ∈ msgs, GoodMsg x)
    (hforall : List.Forall₂ (EntrySpec b.records b.record_pos tp info)
      es (msgsOn tp msgs)) :
    ∀ e ∈ es, 16 < e.pos ∧ e.pos < b.record_pos ∧
      TIME_MIN.leb e.time = true ∧ e.time.leb TIME_MAX = true ∧
      e.time.sec < 2 ^ 32 ∧ e.time.nsec < 2 ^ 32 := by
  intro e he
  obtain ⟨x, hx, hspec⟩ := forall₂_exists_right hforall e he
  obtain ⟨hxm, -⟩ := mem_msgsOn_topic hx
  obtain ⟨-, -, -, -, -, -, htmin, htmax, hnsec⟩ := hgood x hxm
  obtain ⟨htime, hlb, hcase⟩ := hspec
  have hposb : e.pos < b.record_pos := by
    rcases hcase with ⟨-, hb⟩ | ⟨-, -, hb⟩
    · have := Rec.size_pos (dataRec tp info x.2.1 x.2.2)
      omega
    · have := Rec.size_pos (dataRec tp info x.2.1 x.2.2)
      have := Rec.size_pos (defRec tp info)
      omega
  have hsec : e.time.sec < 2 ^ 32 := by
    have := RTime.leb_sec_le (htime ▸ htmax)
    have hmax : TIME_MAX.sec = 4294967295 := rfl
    omega
  exact ⟨hlb, hposb, htime ▸ htmin, htime ▸ htmax, hsec, htime ▸ hnsec⟩

/-- Opening the closed file for reading succeeds and rebuilds exactly the
writer's `topic_indexes_` map; `topics_recorded_` is rebuilt with each
topic present under its own name. -/
theorem bagOpenReadM_close {msgs : List (String × RTime × WMsg)} {b : WBag}
    (D : WData msgs b) (hgood : ∀ x ∈ msgs, GoodMsg x)
    (hlen : msgs.length < 2 ^ 32) (hpos : b.record_pos < 2 ^ 64) :
    ∃ trec',
      bagOpenReadM (fileOf (bagClose b)) = some ⟨trec', b.topic_indexes⟩ ∧
      ∀ hd ∈ b.topic_indexes, ∃ info',
        lookupA trec' hd.1 = some info' ∧ info'.topic = hd.1 := by
  have hW := D.wf
  have hLlb := wfile_pos_lb hW
  have hR1b := chainOk_bounds hW.chain
  have hMKchain := chainOk_mkIdx b.topics_recorded b.topic_indexes
    b.record_pos
  have hMKb := chainOk_bounds hMKchain
  have hLE := chainOk_le hMKchain
  have hrecsF := fileOf_bagClose_records hW
  have hvl : (fileOf (bagClose b)).versionLine = "#ROSRECORD V1.2\n" := by
    rw [fileOf_bagClose_versionLine]
    exact hW.vline
  -- recordAt on the closed file
  have hmid : ∀ p r, 16 < p → p < b.record_pos →
      recordAt b.records p = some r →
      recordAt (fileOf (bagClose b)).records p = some r := by
    intro p r h16 hpL h
    rw [hrecsF, recordAt_left3]
    · exact h
    · intro pr hpr
      have := hMKb pr hpr
      omega
    · intro pr hpr
      rcases List.mem_singleton.mp hpr with rfl
      show ¬(16 = p)
      omega
  have hidx : ∀ pr ∈ mkIdx b.topics_recorded b.topic_indexes b.record_pos,
      recordAt (fileOf (bagClose b)).records pr.1 = some pr.2 := by
    intro pr hpr
    have hb1 := hMKb pr hpr
    rw [hrecsF, recordAt_mid3]
    · exact chainOk_recordAt hMKchain hpr
    · intro pr' hpr'
      have := hR1b pr' hpr'
      have := Rec.size_pos pr'.2
      omega
    · intro pr' hpr'
      rcases List.mem_singleton.mp hpr' with rfl
      show ¬(16 = pr.1)
      omega
  have hend : recordAt (fileOf (bagClose b)).records
      (mkIdxEnd b.topics_recorded b.topic_indexes b.record_pos) = none := by
    rw [hrecsF]
    apply recordAt_eq_none
    intro pr hpr
    rcases List.mem_append.mp hpr with hpr | hpr
    · rcases List.mem_append.mp hpr with hpr | hpr
      · have := hR1b pr hpr
        have := Rec.size_pos pr.2
        omega
      · have := hMKb pr hpr
        have := Rec.size_pos pr.2
        omega
    · rcases List.mem_singleton.mp hpr with rfl
      show ¬(16 = mkIdxEnd b.topics_recorded b.topic_indexes b.record_pos)
      omega
  -- version line and file header
  have hver : readVersionM (fileOf (bagClose b)).versionLine
      = some (1, 2) := by
    rw [hvl]
    decide
  have hfh : readFileHeaderM (fileOf (bagClose b)) = some b.record_pos := by
    apply readFileHeaderM_eq _ hpos
    have h16 : (fileOf (bagClose b)).versionLine.length = 16 := by
      rw [hvl]
      rfl
    rw [h16, hrecsF]
    exact recordAt_snoc_self _ _ _
  -- the index walk
  have hfuel : b.topic_indexes.length
      < (fileOf (bagClose b)).records.length + 1 := by
    rw [hrecsF]
    have := mkIdx_length b.topics_recorded b.topic_indexes b.record_pos
    simp only [List.length_append, List.length_cons, List.length_nil]
    omega
  have hgoodTopics : ∀ tp es, (tp, es) ∈ b.topic_indexes →
      tp ≠ "" ∧ tp.length ≤ UINT_MAX ∧
      (∃ i, lookupA b.topics_recorded tp = some i ∧ i.datatype ≠ "" ∧
        i.datatype.length ≤ UINT_MAX) ∧
      es.length < 2 ^ 32 ∧
      (∀ e ∈ es, e.time.sec < 2 ^ 32 ∧ e.time.nsec < 2 ^ 32 ∧
        e.pos < 2 ^ 64) := by
    intro tp es hm
    obtain ⟨info, x₀, xs, hlkT, hlkR, hforall, hhead, hx₀, hinfo,
      hx₀msgs, hx₀tp, hne⟩ := wdata_topic_package D tp es hm
    obtain ⟨htp0, htpl, hdt0, hdtl, hmd5, hdefl, -⟩ := hgood x₀ hx₀msgs
    have hentries := wdata_entry_package hgood hforall
    refine ⟨hx₀tp ▸ htp0, hx₀tp ▸ htpl, ⟨info, hlkR, ?_, ?_⟩, ?_, ?_⟩
    · rw [hinfo]
      exact hdt0
    · rw [hinfo]
      exact hdtl
    · have := hforall.length_eq
      have hml : (msgsOn tp msgs).length ≤ msgs.length :=
        List.length_filter_le _ _
      omega
    · intro e he
      have := hentries e he
      exact ⟨this.2.2.2.2.1, this.2.2.2.2.2, by omega⟩
  have hloop : readIndexLoop (fileOf (bagClose b)).records
      ((fileOf (bagClose b)).records.length + 1) b.record_pos []
      = some b.topic_indexes := by
    have := readIndexLoop_run b.topic_indexes
      ((fileOf (bagClose b)).records.length + 1) b.record_pos []
      hfuel hidx hend D.keys_chain
      (by intro a ha; simp at ha)
      hgoodTopics
    rw [this, List.nil_append]
  -- the definition reads
  have hdefsOk : ∀ tp es, (tp, es) ∈ b.topic_indexes → ∃ e es' info,
      es = e :: es' ∧
      recordAt (fileOf (bagClose b)).records e.pos
        = some (defRec tp info) ∧
      tp ≠ "" ∧ tp.length ≤ UINT_MAX ∧ info.md5sum.length = 32 ∧
      info.datatype ≠ "" ∧ info.datatype.length ≤ UINT_MAX ∧
      info.msg_def.length ≤ UINT_MAX := by
    intro tp es hm
    obtain ⟨info, x₀, xs, hlkT, hlkR, hforall, hhead, hx₀, hinfo,
      hx₀msgs, hx₀tp, hne⟩ := wdata_topic_package D tp es hm
    obtain ⟨htp0, htpl, hdt0, hdtl, hmd5, hdefl, -⟩ := hgood x₀ hx₀msgs
    obtain ⟨e, es', hes⟩ : ∃ e es', es = e :: es' := by
      cases es with
      | nil => exact absurd rfl hne
      | cons e es' => exact ⟨e, es', rfl⟩
    have hentry := wdata_entry_package hgood hforall e (by rw [hes]; simp)
    refine ⟨e, es', info, hes, ?_, hx₀tp ▸ htp0, hx₀tp ▸ htpl, ?_, ?_, ?_, ?_⟩
    · exact hmid e.pos _ hentry.1 hentry.2.1 (hhead e es' hes)
    · rw [hinfo]
      exact hmd5
    · rw [hinfo]
      exact hdt0
    · rw [hinfo]
      exact hdtl
    · rw [hinfo]
      exact hdefl
  obtain ⟨trec', hrun, hconc, -⟩ := readDefsM_ok b.topic_indexes []
    D.keys_nodup hdefsOk (fun tp entries _ => rfl)
  refine ⟨trec', ?_, ?_⟩
  · unfold bagOpenReadM
    simp only [hver, hfh, hloop, hrun]
  · intro hd hm
    obtain ⟨e, es', info, -, -, hlk⟩ := hconc hd.1 hd.2 hm
    exact ⟨_, hlk, rfl⟩

/-- A record strictly between the file header and the index block is
still found at its position after `close` appends the index and rewrites
the header. -/
theorem recordAt_close_mid {b : WBag} (W : WFile b) {p : Nat} {r : Rec}
    (h16 : 16 < p) (hpL : p < b.record_pos)
    (h : recordAt b.records p = some r) :
    recordAt (fileOf (bagClose b)).records p = some r := by
  have hMKb := chainOk_bounds (chainOk_mkIdx b.topics_recorded
    b.topic_indexes b.record_pos)
  rw [fileOf_bagClose_records W, recordAt_left3]
  · exact h
  · intro pr hpr
    have := hMKb pr hpr
    omega
  · intro pr hpr
    rcases List.mem_singleton.mp hpr with rfl
    show ¬(16 = p)
    omega

/-- `Bag::instantiate` at an index entry of the closed file reads back
the written payload, whether the entry points at the data record or at
the preceding definition record. -/
theorem instantiate_entry_close {b : WBag} (W : WFile b) {tp : String}
    {info : MsgInfo} {e : IndexEntry} {x : String × RTime × WMsg}
    (hspec : EntrySpec b.records b.record_pos tp info e x)
    (htp : tp ≠ "") (htpl : tp.length ≤ UINT_MAX)
    (hmd5 : info.md5sum.length = 32)
    (hdt : info.datatype ≠ "") (hdtl : info.datatype.length ≤ UINT_MAX) :
    instantiateAt (fileOf (bagClose b)).records e.pos
      = some x.2.2.payload := by
  obtain ⟨-, hlb, hcase⟩ := hspec
  rcases hcase with ⟨h1, hb⟩ | ⟨h1, h2, hb⟩
  · have hd8 := Rec.size_pos (dataRec tp info x.2.1 x.2.2)
    exact instantiateAt_data
      (recordAt_close_mid W hlb (by omega) h1) htp htpl hmd5 hdt hdtl
  · have hd8 := Rec.size_pos (dataRec tp info x.2.1 x.2.2)
    have hf8 := Rec.size_pos (defRec tp info)
    exact instantiateAt_def_data
      (recordAt_close_mid W hlb (by omega) h1)
      (recordAt_close_mid W (by omega) (by omega) h2)
      htp htpl hmd5 hdt hdtl

/-- A topic index inherits the time-sortedness of its calls through the
entry/call correspondence. -/
theorem entries_chain_of_sorted {msgs : List (String × RTime × WMsg)}
    {b : WBag} {tp : String} {info : MsgInfo} {es : List IndexEntry}
    (hforall : List.Forall₂ (EntrySpec b.records b.record_pos tp info)
      es (msgsOn tp msgs))
    (hs : List.Chain' (fun x y => x.2.1.leb y.2.1 = true) (msgsOn tp msgs)) :
    List.Chain' (fun a c : IndexEntry => a.time.leb c.time = true) es := by
  have hmap : es.map (fun e => e.time)
      = (msgsOn tp msgs).map (fun x => x.2.1) :=
    forall₂_map_eq hforall (fun e x _ _ hr => hr.1)
  have h1 : List.Chain' (fun a c : RTime => a.leb c = true)
      ((msgsOn tp msgs).map (fun x => x.2.1)) :=
    (List.chain'_map _).mpr hs
  rw [← hmap] at h1
  exact (List.chain'_map _).mp h1

/-- The merge view over the closed-and-reopened file: all the written
messages come back, each under its topic and timestamp with its payload,
and the yielded timestamps are globally non-decreasing. -/
theorem c1_view_close {msgs : List (String × RTime × WMsg)} {b : WBag}
    (D : WData msgs b) (hgood : ∀ x ∈ msgs, GoodMsg x)
    (hsorted : ∀ tp ∈ msgs.map Prod.fst,
      List.Chain' (fun x y => x.2.1.leb y.2.1 = true) (msgsOn tp msgs))
    (hlen : msgs.length < 2 ^ 32) (hpos : b.record_pos < 2 ^ 64) :
    ∃ out,
      (bagOpenReadM (fileOf (bagClose b))).map
        (fun rb => viewTriples (fileOf (bagClose b)) rb
          (rb.topic_indexes.map (·.1)) TIME_MIN TIME_MAX) = some out ∧
      timesNondecr out ∧
      out.Perm (msgs.map (fun x => (x.1, x.2.1, some x.2.2.payload))) := by
  obtain ⟨trec', hopen, htrecL⟩ := bagOpenReadM_close D hgood hlen hpos
  have hslices : ∀ tp entries, lookupA b.topic_indexes tp = some entries →
      sliceFor entries TIME_MIN TIME_MAX = entries ∧
      List.Chain' (fun a c : IndexEntry => a.time.leb c.time = true)
        entries := by
    intro tp entries hlk
    have hm := lookupA_mem hlk
    obtain ⟨info, x₀, xs, -, -, hforall, -, hx₀, -, hx₀msgs, hx₀tp, -⟩ :=
      wdata_topic_package D tp entries hm
    have hent := wdata_entry_package hgood hforall
    constructor
    · exact sliceFor_full
        (fun e he => ⟨(hent e he).2.2.1, (hent e he).2.2.2.1⟩)
    · refine entries_chain_of_sorted hforall (hsorted tp ?_)
      exact List.mem_map.mpr ⟨x₀, hx₀msgs, hx₀tp⟩
  have hchq : ∀ h ∈ helpersFor b.topic_indexes trec'
      (b.topic_indexes.map (·.1)) TIME_MIN TIME_MAX,
      List.Chain' (fun a c : IndexEntry => a.time.leb c.time = true)
        (h.cur :: h.rest) := by
    intro h hm
    obtain ⟨tp, entries, info, hlkT, -, hslice, -⟩ := mem_helpersFor hm
    obtain ⟨hfull, hchain⟩ := hslices tp entries hlkT
    rw [hfull] at hslice
    rw [hslice] at hchain
    exact hchain
  have hF2hyp : ∀ hd ∈ b.topic_indexes,
      lookupA b.topic_indexes hd.1 = some hd.2 ∧
      (lookupA trec' hd.1).isSome ∧
      sliceFor hd.2 TIME_MIN TIME_MAX = hd.2 ∧ hd.2 ≠ [] := by
    intro hd hm
    obtain ⟨info, x₀, xs, hlkT, -, hforall, -, -, -, -, -, hne⟩ :=
      wdata_topic_package D hd.1 hd.2 hm
    obtain ⟨info', hlk', -⟩ := htrecL hd hm
    refine ⟨hlkT, ?_, (hslices hd.1 hd.2 hlkT).1, hne⟩
    rw [hlk']
    rfl
  have hF2 : List.Forall₂
      (fun (hd : String × List IndexEntry) (h : MergeHelper) =>
        h.cur :: h.rest = hd.2 ∧ lookupA b.topic_indexes hd.1 = some hd.2 ∧
        lookupA trec' hd.1 = some h.info)
      b.topic_indexes
      (helpersFor b.topic_indexes trec' (b.topic_indexes.map (·.1))
        TIME_MIN TIME_MAX) :=
    helpersFor_forall₂ hF2hyp
  have hflatEq : (qItems (helpersFor b.topic_indexes trec'
        (b.topic_indexes.map (·.1)) TIME_MIN TIME_MAX)).map
        (fun pr : MsgInfo × IndexEntry => (pr.1.topic, pr.2.time,
          instantiateAt (fileOf (bagClose b)).records pr.2.pos))
      = b.topic_indexes.flatMap (fun hd => (msgsOn hd.1 msgs).map
          (fun x => (x.1, x.2.1, some x.2.2.payload))) := by
    rw [qItems, List.map_flatMap]
    refine (forall₂_flatMap_eq hF2 ?_).symm
    intro hd h hmem hmemq hr
    obtain ⟨hcr, hlkT, hlkR⟩ := hr
    obtain ⟨info, x₀, xs, -, hlkW, hforall, -, hx₀, hinfoeq, hx₀msgs,
      hx₀tp, -⟩ := wdata_topic_package D hd.1 hd.2 hmem
    obtain ⟨info', hlk', htopic⟩ := htrecL hd hmem
    have htopich : h.info.topic = hd.1 := by
      rw [hlkR] at hlk'
      rw [Option.some.inj hlk']
      exact htopic
    obtain ⟨htp0, htpl, hdt0, hdtl, hmd5, -, -⟩ := hgood x₀ hx₀msgs
    rw [hItems_eq, hcr, List.map_map]
    refine (forall₂_map_eq hforall ?_).symm
    intro e x he hx hspec
    obtain ⟨-, hx1⟩ := mem_msgsOn_topic hx
    show (h.info.topic, e.time,
        instantiateAt (fileOf (bagClose b)).records e.pos)
      = (x.1, x.2.1, some x.2.2.payload)
    rw [htopich, hx1, hspec.1,
      instantiate_entry_close D.wf hspec (hx₀tp ▸ htp0) (hx₀tp ▸ htpl)
        (by rw [hinfoeq]; exact hmd5) (by rw [hinfoeq]; exact hdt0)
        (by rw [hinfoeq]; exact hdtl)]
  have hkeysEq : b.topic_indexes.flatMap (fun hd => (msgsOn hd.1 msgs).map
        (fun x => (x.1, x.2.1, some x.2.2.payload)))
      = ((b.topic_indexes.map (·.1)).flatMap
          (fun tp => msgsOn tp msgs)).map
        (fun x => (x.1, x.2.1, some x.2.2.payload)) := by
    rw [List.map_flatMap, List.flatMap_map]
  have hcov : ∀ x ∈ msgs, x.1 ∈ b.topic_indexes.map (·.1) := by
    intro x hx
    by_contra hnot
    have hnone : lookupA b.topic_indexes x.1 = none := by
      apply lookupA_eq_none_of_not_mem
      simpa using hnot
    have hempty := D.hnone x.1 hnone
    have hmem := self_mem_msgsOn hx
    rw [hempty] at hmem
    exact List.not_mem_nil x hmem
  have hperm2 : ((b.topic_indexes.map (·.1)).flatMap
      (fun tp => msgsOn tp msgs)).Perm msgs :=
    flatMap_msgsOn_perm _ msgs D.keys_nodup hcov
  refine ⟨viewTriples (fileOf (bagClose b)) ⟨trec', b.topic_indexes⟩
      (b.topic_indexes.map (·.1)) TIME_MIN TIME_MAX, ?_, ?_, ?_⟩
  · rw [hopen]
    rfl
  · show List.Chain' (fun a c => a.2.1.leb c.2.1 = true)
      ((mergeFuel
        (qsize (helpersFor b.topic_indexes trec'
          (b.topic_indexes.map (·.1)) TIME_MIN TIME_MAX))
        (helpersFor b.topic_indexes trec'
          (b.topic_indexes.map (·.1)) TIME_MIN TIME_MAX)).map
        (fun pr : MsgInfo × IndexEntry => (pr.1.topic, pr.2.time,
          instantiateAt (fileOf (bagClose b)).records pr.2.pos)))
    exact (List.chain'_map _).mpr
      (mergeFuel_sorted _ _ (Nat.le_refl _) hchq)
  · show ((mergeFuel
        (qsize (helpersFor b.topic_indexes trec'
          (b.topic_indexes.map (·.1)) TIME_MIN TIME_MAX))
        (helpersFor b.topic_indexes trec'
          (b.topic_indexes.map (·.1)) TIME_MIN TIME_MAX)).map
        (fun pr : MsgInfo × IndexEntry => (pr.1.topic, pr.2.time,
          instantiateAt (fileOf (bagClose b)).records pr.2.pos))).Perm
      (msgs.map (fun x => (x.1, x.2.1, some x.2.2.payload)))
    refine List.Perm.trans
      ((mergeFuel_perm _ _ (Nat.le_refl _)).map _) ?_
    rw [hflatEq, hkeysEq]
    exact hperm2.map _

/-! # Claims -/

/-- C10: in read mode, `Bag::open` opens the read stream and then tests
`write_stream_.fail()` (rosbag.cpp:144) — the write stream was never
opened, so its fail bit is clear and the open-failure branch
(`return false`) is never taken, no matter whether the read stream failed
to open; bootstrap then proceeds on the unopened stream. -/
theorem c10_open_read_checks_wrong_stream (readOpenFailed : Bool) :
    openReadAborts (afterReadOpen readOpenFailed) = false := rfl

/-- C3: the support check of `Bag::readVersion` (rosbag.cpp:183) is
`major != cur_major && minor != cur_minor`, a conjunction, so a version
line agreeing with the current version `1.2` in just one component — for
example `V1.3` or `V2.2` — is accepted, while the claim (and the code's
own fatal message) says only the current pair may pass.  Only a pair
differing in both components, such as `V2.3`, is rejected. -/
theorem c3_version_check_accepts_mismatch :
    readVersionM "#ROSRECORD V1.3\n" = some (1, 3) ∧
    readVersionM "#ROSRECORD V2.2\n" = some (2, 2) ∧
    readVersionM "#ROSRECORD V2.3\n" = none ∧
    (CUR_VERSION_MAJOR, CUR_VERSION_MINOR) = (1, 2) := by
  refine ⟨by decide, by decide, by decide, rfl⟩

/-- C6: when the underlying stream write fails during `Bag::write`, the
code only logs `ROS_FATAL` (rosbag.cpp:433-436) and returns normally; no
error reaches the caller, contradicting the claim (and the doc comment on
`Bag::write`, rosbag.h:164, which promises a `BagIOException`). -/
theorem c6_write_io_failure_not_surfaced (b : WBag) (topic : String)
    (t : RTime) (m : WMsg) :
    bagWriteChecked b topic t m true
      = WriteOutcome.returned (bagWrite b topic t m) := rfl

/-- C7: with `writing_enabled_` false, `Bag::write` returns after the
rate-limited warning (rosbag.cpp:310-319): no index entry, no topic
admission, no bytes — the bag state is untouched. -/
theorem c7_write_disabled_noop (b : WBag) (topic : String) (t : RTime)
    (m : WMsg) (h : b.writing_enabled = false) :
    bagWrite b topic t m = b := by
  unfold bagWrite
  rw [h]
  rfl

theorem c7_write_disabled_noop_witness :
    c7bag.writing_enabled = false ∧
    bagWrite c7bag "a" ⟨1, 0⟩ exMsgA = c7bag :=
  ⟨rfl, c7_write_disabled_noop c7bag "a" ⟨1, 0⟩ exMsgA rfl⟩

/-- C8: `MessageInstance::instantiate<T>` (rosbag.h:560-570) returns the
empty pointer — raising nothing — whenever the fingerprint of `T` differs
from the recorded md5sum and does not begin with `'*'`; a fingerprint
beginning with `'*'` skips the compatibility check and the call proceeds
to `Bag::instantiate`. -/
theorem c8_instantiate_fingerprint_check (fingerprintT : String)
    (info : MsgInfo) (rs : List (Nat × Rec)) (pos : Nat) :
    (fingerprintT ≠ info.md5sum → strFront fingerprintT ≠ '*' →
      miInstantiate fingerprintT info rs pos = none) ∧
    (strFront fingerprintT = '*' →
      miInstantiate fingerprintT info rs pos = instantiateAt rs pos) := by
  constructor
  · intro h1 h2
    unfold miInstantiate
    rw [if_pos ⟨h1, h2⟩]
  · intro h
    unfold miInstantiate
    rw [if_neg]
    simp [h]

theorem c8_instantiate_fingerprint_check_witness :
    ("deadbeef" ≠ c2info.md5sum ∧ strFront "deadbeef" ≠ '*' ∧
      miInstantiate "deadbeef" c2info [] 0 = none) ∧
    (strFront "*anything" = '*' ∧
      miInstantiate "*anything" c2info [] 0 = instantiateAt [] 0) :=
  ⟨⟨by decide, by decide,
    (c8_instantiate_fingerprint_check "deadbeef" c2info [] 0).1
      (by decide) (by decide)⟩,
   ⟨by decide,
    (c8_instantiate_fingerprint_check "*anything" c2info [] 0).2 (by decide)⟩⟩

/-- C5: a successful `Bag::write` appends `IndexEntry{time, record_pos_}`
to the topic's index (rosbag.cpp:385-388) before emitting any bytes, and
the first record subsequently emitted for this message — the definition
record when the topic is new, otherwise the data record — is written at
exactly that position. -/
theorem c5_index_entry_pos_is_first_record (b : WBag) (topic : String)
    (t : RTime) (m : WMsg) (h : b.writing_enabled = true) :
    (∃ prev, lookupA (bagWrite b topic t m).topic_indexes topic
        = some (prev ++ [⟨t, b.record_pos⟩])) ∧
    ((bagWrite b topic t m).records.drop b.records.length).head?.map Prod.fst
        = some b.record_pos ∧
    (((bagWrite b topic t m).records.drop b.records.length).head?.bind
        (fun pr => opOf pr.2))
      = some (if (lookupA b.topics_recorded topic).isSome
              then OP_MSG_DATA else OP_MSG_DEF) := by
  rcases hl : lookupA b.topics_recorded topic with - | info
  · -- new topic: definition record first
    have h1 : lookupA (setA topic ([] : List IndexEntry) b.topic_indexes) topic
        = some [] := lookupA_setA_self ..
    refine ⟨⟨[], ?_⟩, ?_, ?_⟩
    · simp only [bagWrite, h, if_true, hl, Option.isNone_none, appendRec]
      rw [lookupA_updateA, getOrCreateA, h1]
      simp [h1]
    · simp only [bagWrite, h, if_true, hl, Option.isNone_none, appendRec,
        List.append_assoc, List.drop_left]
      rfl
    · simp only [bagWrite, h, if_true, hl, Option.isNone_none, appendRec,
        List.append_assoc, List.drop_left]
      simp [opOf, findField, defRec, lookupA, hl]
  · -- known topic: data record only
    refine ⟨⟨(lookupA b.topic_indexes topic).getD [], ?_⟩, ?_, ?_⟩
    · simp only [bagWrite, h, if_true, hl, Option.isNone_some, Bool.false_eq_true,
        if_false, appendRec]
      rw [lookupA_updateA, lookupA_getOrCreateA_self]
      rfl
    · simp only [bagWrite, h, if_true, hl, Option.isNone_some, Bool.false_eq_true,
        if_false, appendRec, List.drop_left]
      rfl
    · simp only [bagWrite, h, if_true, hl, Option.isNone_some, Bool.false_eq_true,
        if_false, appendRec, List.drop_left]
      simp [opOf, findField, dataRec, lookupA, hl]

theorem c5_index_entry_pos_is_first_record_witness :
    bagOpenWrite.writing_enabled = true ∧
    ((∃ prev, lookupA (bagWrite bagOpenWrite "a" ⟨1, 0⟩ exMsgA).topic_indexes "a"
        = some (prev ++ [⟨⟨1, 0⟩, bagOpenWrite.record_pos⟩])) ∧
     ((bagWrite bagOpenWrite "a" ⟨1, 0⟩ exMsgA).records.drop
        bagOpenWrite.records.length).head?.map Prod.fst
        = some bagOpenWrite.record_pos ∧
     (((bagWrite bagOpenWrite "a" ⟨1, 0⟩ exMsgA).records.drop
        bagOpenWrite.records.length).head?.bind (fun pr => opOf pr.2))
      = some (if (lookupA bagOpenWrite.topics_recorded "a").isSome
              then OP_MSG_DATA else OP_MSG_DEF)) :=
  ⟨rfl, c5_index_entry_pos_is_first_record bagOpenWrite "a" ⟨1, 0⟩ exMsgA rfl⟩

/-- C4: after `close()` on a write-mode bag that received at least one
message, the `index_pos` field of the rewritten file-header record equals
the file offset of the first `OP_INDEX_DATA` record: `writeIndex`
(rosbag.cpp:510) latches `index_data_pos_ = record_pos_` right before
emitting the first index record and the rewritten header carries that
value (rosbag.cpp:450).  The `2^64` bound reflects the 8-byte on-disk
field. -/
theorem c4_index_pos_eq_first_index_record
    (msgs : List (String × RTime × WMsg)) (hne : msgs ≠ [])
    (hbound : (writeAll msgs bagOpenWrite).record_pos < 2 ^ 64) :
    readFileHeaderM (fileOf (bagClose (writeAll msgs bagOpenWrite)))
      = some (writeAll msgs bagOpenWrite).record_pos ∧
    ((bagClose (writeAll msgs bagOpenWrite)).records.find? isIndexRec).map
        Prod.fst
      = some (writeAll msgs bagOpenWrite).record_pos := by
  have W : WFile (writeAll msgs bagOpenWrite) := wfile_writeAll wfile_open msgs
  set b := writeAll msgs bagOpenWrite with hbdef
  have hclose := bagClose_eq b
  constructor
  · apply readFileHeaderM_eq _ hbound
    show recordAt (bagClose b).records (bagClose b).versionLine.length
      = some (fileHeaderRec b.record_pos)
    rw [hclose]
    have hv : ({ b with
        records := (b.records
            ++ mkIdx b.topics_recorded b.topic_indexes b.record_pos)
          ++ [(b.file_header_pos, fileHeaderRec b.record_pos)],
        record_pos := b.file_header_pos + (fileHeaderRec b.record_pos).size,
        index_data_pos := b.record_pos,
        topics_recorded := [], topic_indexes := [] } : WBag).versionLine.length
        = b.file_header_pos := by
      show b.versionLine.length = b.file_header_pos
      rw [W.vline, W.fhpos]
      decide
    rw [hv]
    exact recordAt_snoc_self _ _ _
  · rw [hclose]
    show (((b.records ++ mkIdx b.topics_recorded b.topic_indexes b.record_pos)
        ++ [(b.file_header_pos, fileHeaderRec b.record_pos)]).find?
          isIndexRec).map Prod.fst = some b.record_pos
    obtain ⟨⟨tp0, es0⟩, restT, htind⟩ :=
      List.exists_cons_of_ne_nil (writeAll_tind_ne_nil wfile_open hne)
    have hnone : b.records.find? isIndexRec = none := by
      rw [List.find?_eq_none]
      intro pr hm
      have := W.noIdx pr hm
      simp [isIndexRec, this]
    rw [← hbdef] at htind
    have hidx : isIndexRec (b.record_pos,
        indexRec tp0
          (match lookupA b.topics_recorded tp0 with
           | some i => i.datatype
           | none => "") es0) = true := by
      simp [isIndexRec, opOf_indexRec]
    rw [List.find?_append, List.find?_append, hnone, htind]
    simp only [Option.none_or, mkIdx]
    rw [List.find?_cons_of_pos _ hidx]
    rfl

theorem c4_index_pos_eq_first_index_record_witness :
    ([("a", (⟨1, 0⟩ : RTime), exMsgA)] ≠ []) ∧
    ((writeAll [("a", ⟨1, 0⟩, exMsgA)] bagOpenWrite).record_pos < 2 ^ 64) ∧
    (readFileHeaderM (fileOf (bagClose
        (writeAll [("a", ⟨1, 0⟩, exMsgA)] bagOpenWrite)))
      = some (writeAll [("a", ⟨1, 0⟩, exMsgA)] bagOpenWrite).record_pos ∧
    ((bagClose (writeAll [("a", ⟨1, 0⟩, exMsgA)] bagOpenWrite)).records.find?
        isIndexRec).map Prod.fst
      = some (writeAll [("a", ⟨1, 0⟩, exMsgA)] bagOpenWrite).record_pos) :=
  ⟨by decide, by decide,
   c4_index_pos_eq_first_index_record [("a", ⟨1, 0⟩, exMsgA)]
     (by decide) (by decide)⟩

/-- C2, counterexample: `getViewByTopic` bounds the range with
`std::upper_bound` on the end time (rosbag.cpp:858), which keeps entries
whose timestamp equals the bound, so for a query `[(0,1), (5,0))` over an
index holding an entry at exactly `(5,0)` the claim "an entry whose
timestamp equals t_hi is never yielded" fails. -/
theorem c2_counterexample :
    ¬ (∀ pr ∈ viewListM c2tind c2trec ["a"] ⟨0, 1⟩ ⟨5, 0⟩,
        pr.2.time.ltb ⟨5, 0⟩ = true) := by
  decide

/-- C2, amended: with each queried topic's index non-decreasing in time
(the layout the binary searches assume), every entry yielded for a query
`[t_lo, t_hi)` satisfies `t_lo ≤ time ≤ t_hi` — the upper bound is
inclusive, not exclusive, because the code slices with `std::upper_bound`
on the end time. -/
theorem c2_amended_time_filter (tind : List (String × List IndexEntry))
    (trec : List (String × MsgInfo)) (topics : List String) (t0 t1 : RTime)
    (hsorted : ∀ tp entries, lookupA tind tp = some entries →
      List.Chain' (fun a b => a.time.leb b.time = true) entries) :
    ∀ pr ∈ viewListM tind trec topics t0 t1,
      t0.leb pr.2.time = true ∧ pr.2.time.leb t1 = true := by
  intro pr hm
  simp only [viewListM] at hm
  have hq : pr ∈ qItems (helpersFor tind trec topics t0 t1) :=
    (mergeFuel_perm _ _ (Nat.le_refl _)).mem_iff.mp hm
  rw [qItems, List.mem_flatMap] at hq
  obtain ⟨h, hhm, hin⟩ := hq
  obtain ⟨tp, entries, info, hl1, hl2, hsl, hinfo⟩ := mem_helpersFor hhm
  have hent : pr.2 ∈ sliceFor entries t0 t1 := by
    rw [hsl]
    rw [hItems] at hin
    rcases List.mem_cons.mp hin with rfl | hin
    · exact List.mem_cons_self _ _
    · obtain ⟨e, he, rfl⟩ := List.mem_map.mp hin
      exact List.mem_cons_of_mem _ he
  exact ⟨sliceFor_lower (hsorted tp entries hl1) hent, sliceFor_upper hent⟩

theorem c2_amended_time_filter_witness :
    (∀ tp entries, lookupA c2tind tp = some entries →
      List.Chain' (fun a b : IndexEntry => a.time.leb b.time = true) entries) ∧
    (∀ pr ∈ viewListM c2tind c2trec ["a"] ⟨2, 0⟩ ⟨6, 0⟩,
      (⟨2, 0⟩ : RTime).leb pr.2.time = true ∧
        pr.2.time.leb ⟨6, 0⟩ = true) := by
  have hs : ∀ tp entries, lookupA c2tind tp = some entries →
      List.Chain' (fun a b : IndexEntry => a.time.leb b.time = true) entries := by
    intro tp entries hl
    by_cases htp : "a" = tp
    · simp only [c2tind, lookupA, htp, if_true, Option.some.injEq] at hl
      subst hl
      simp
    · simp [c2tind, lookupA, htp] at hl
  exact ⟨hs, c2_amended_time_filter c2tind c2trec ["a"] ⟨2, 0⟩ ⟨6, 0⟩ hs⟩

/-- C9, counterexample: `Bag::readDefs` (rosbag.cpp:649-651) dereferences
`topic_index.begin()` without an emptiness check, so a topic with an
empty index (producible by an index record with `count = 0`) is not
skipped — the bootstrap dies on it instead of succeeding with no
definition read. -/
theorem c9_counterexample :
    readDefsM [] c9tind [] = none ∧ readDefsM [] [] [] = some [] := by
  constructor <;> decide

/-- C9, amended: `Bag::readDefs` iterates all of `topic_indexes_` and
unconditionally dereferences each topic's first index entry — empty
indexes are not skipped (they are undefined behaviour, see the
counterexample).  When every topic's index is non-empty and its first
entry's offset holds a well-formed definition record, the pass succeeds,
reads exactly that record per topic (asserting its opcode is
`OP_MSG_DEF`, tolerating an empty definition field), and populates each
not-yet-recorded topic's `MsgInfo` with the record's topic, datatype,
fingerprint and definition string. -/
theorem c9_amended_read_defs (rs : List (Nat × Rec))
    (tind : List (String × List IndexEntry))
    (hnodup : (tind.map Prod.fst).Nodup)
    (hok : ∀ tp entries, (tp, entries) ∈ tind → ∃ e es info,
      entries = e :: es ∧ recordAt rs e.pos = some (defRec tp info) ∧
      tp ≠ "" ∧ tp.length ≤ UINT_MAX ∧ info.md5sum.length = 32 ∧
      info.datatype ≠ "" ∧ info.datatype.length ≤ UINT_MAX ∧
      info.msg_def.length ≤ UINT_MAX) :
    ∃ trec, readDefsM rs tind [] = some trec ∧
      ∀ tp entries, (tp, entries) ∈ tind → ∃ e es info,
        entries = e :: es ∧ recordAt rs e.pos = some (defRec tp info) ∧
        lookupA trec tp
          = some ⟨tp, info.msg_def, info.md5sum, info.datatype⟩ := by
  obtain ⟨trec, h1, h2, -⟩ :=
    readDefsM_ok tind [] hnodup hok (fun _ _ _ => rfl)
  exact ⟨trec, h1, h2⟩

theorem c9_amended_read_defs_witness :
    ((c9tindGood.map Prod.fst).Nodup ∧
     (∀ tp entries, (tp, entries) ∈ c9tindGood → ∃ e es info,
        entries = e :: es ∧ recordAt c9rs e.pos = some (defRec tp info) ∧
        tp ≠ "" ∧ tp.length ≤ UINT_MAX ∧ info.md5sum.length = 32 ∧
        info.datatype ≠ "" ∧ info.datatype.length ≤ UINT_MAX ∧
        info.msg_def.length ≤ UINT_MAX)) ∧
    (∃ trec, readDefsM c9rs c9tindGood [] = some trec ∧
      ∀ tp entries, (tp, entries) ∈ c9tindGood → ∃ e es info,
        entries = e :: es ∧ recordAt c9rs e.pos = some (defRec tp info) ∧
        lookupA trec tp
          = some ⟨tp, info.msg_def, info.md5sum, info.datatype⟩) := by
  have hok : ∀ tp entries, (tp, entries) ∈ c9tindGood → ∃ e es info,
      entries = e :: es ∧ recordAt c9rs e.pos = some (defRec tp info) ∧
      tp ≠ "" ∧ tp.length ≤ UINT_MAX ∧ info.md5sum.length = 32 ∧
      info.datatype ≠ "" ∧ info.datatype.length ≤ UINT_MAX ∧
      info.msg_def.length ≤ UINT_MAX := by
    intro tp entries hm
    have h := List.mem_singleton.mp hm
    obtain ⟨rfl, rfl⟩ := Prod.mk.injEq .. ▸ h
    exact ⟨⟨⟨1, 0⟩, 0⟩, [], c9info, rfl, by decide, by decide, by decide,
      by decide, by decide, by decide, by decide⟩
  exact ⟨⟨by decide, hok⟩, c9_amended_read_defs c9rs c9tindGood (by decide) hok⟩

/-- C1, counterexample: the merge view yields per-topic entries in
insertion order, so writing topic `a` at times 3 then 1 and reading the
bag back yields timestamps `3, 1` — not non-decreasing, refuting the
unconditional round-trip ordering claim (the spec's own scenario S5
documents this behaviour). -/
theorem c1_counterexample :
    roundTrip c1input =
      some [("a", ⟨3, 0⟩, some [7]), ("a", ⟨1, 0⟩, some [9])] ∧
    ¬ timesNondecr [("a", ⟨3, 0⟩, some [7]), ("a", ⟨1, 0⟩, some [9])] := by
  constructor
  · decide
  · intro h
    simp [timesNondecr, List.chain'_cons, RTime.leb] at h

/-- C1 (amended): restricted to call sequences whose timestamps are
non-decreasing within each topic — with the per-call side conditions
`GoodMsg` (non-empty topic and datatype of field-checkable length, a
32-character fingerprint, a definition of checkable length, timestamps in
`[TIME_MIN, TIME_MAX]` with representable nanoseconds) and a
representable message count and file size — the write → close → reopen →
view-all-topics round trip succeeds, yields its timestamps in
non-decreasing order, and yields exactly the written
(topic, time, payload) triples up to permutation (multiset equality).
The unrestricted claim is refuted by `Rosbag.c1_counterexample`: the
view merges the per-topic indexes by timestamp but preserves each
topic's insertion order within itself, so a topic written with
decreasing timestamps is yielded out of order. -/
theorem c1_amended_round_trip (msgs : List (String × RTime × WMsg))
    (hgood : ∀ x ∈ msgs, GoodMsg x)
    (hsorted : ∀ tp ∈ msgs.map Prod.fst,
      List.Chain' (fun x y => x.2.1.leb y.2.1 = true) (msgsOn tp msgs))
    (hlen : msgs.length < 2 ^ 32)
    (hpos : (writeAll msgs bagOpenWrite).record_pos < 2 ^ 64) :
    ∃ out, roundTrip msgs = some out ∧ timesNondecr out ∧
      out.Perm (msgs.map (fun x => (x.1, x.2.1, some x.2.2.payload))) := by
  have D : WData msgs (writeAll msgs bagOpenWrite) := by
    have h := @wdata_writeAll msgs [] bagOpenWrite wdata_init
    rwa [List.nil_append] at h
  have h := c1_view_close D hgood hsorted hlen hpos
  simpa only [roundTrip] using h

theorem c1_amended_round_trip_witness :
    ((∀ x ∈ c1goodInput, GoodMsg x) ∧
      (∀ tp ∈ c1goodInput.map Prod.fst,
        List.Chain' (fun x y => x.2.1.leb y.2.1 = true)
          (msgsOn tp c1goodInput)) ∧
      c1goodInput.length < 2 ^ 32 ∧
      (writeAll c1goodInput bagOpenWrite).record_pos < 2 ^ 64) ∧
    ∃ out, roundTrip c1goodInput = some out ∧ timesNondecr out ∧
      out.Perm (c1goodInput.map
        (fun x => (x.1, x.2.1, some x.2.2.payload))) :=
  ⟨⟨by
      intro x hx
      fin_cases hx <;>
        exact ⟨by decide, by decide, by decide, by decide, by decide,
          by decide, by decide, by decide, by decide⟩,
    by
      intro tp htp
      fin_cases htp <;> exact List.chain'_pair.mpr rfl,
    by decide, by decide⟩,
   c1_amended_round_trip c1goodInput
     (by
       intro x hx
       fin_cases hx <;>
         exact ⟨by decide, by decide, by decide, by decide, by decide,
           by decide, by decide, by decide, by decide⟩)
     (by
       intro tp htp
       fin_cases htp <;> exact List.chain'_pair.mpr rfl)
     (by decide) (by decide)⟩

end Rosbag
